import Mathlib

/-
Verification of the matching/loss engine (`src/imitation/algorithms/bc.py`,
`BC._calculate_loss`) and the rollout engine (`src/imitation/data/rollout.py`)
of the multi-hypothesis imitation-learning repository.

The numeric tensors of the source are modelled over `ℚ` (exact rationals in
place of floating point); per-sample matrices become functions `ℕ → ℕ → ℚ`.
-/

/-- Duplicate-distance threshold `1e-7` used by the duplicate detector
(`th.lt(distance_pos_matrix_within_expert[:,i,j], 1e-7)`). -/
def dupThreshold : ℚ := 1 / 10000000

/-- Mean of the elementwise squared error between two vectors, as computed by
`th.mean(th.nn.MSELoss(reduction='none')(u, v), dim=1)` for one pair `(i, j)`.
The mean divides by the length of the first (expert-side) slice. -/
def mseMean (u v : List ℚ) : ℚ :=
  (List.zipWith (fun a b => (a - b) ^ 2) u v).sum / (u.length : ℚ)

/-- Position slice `v[0:P]` of a trajectory vector. -/
def posSlice (P : ℕ) (v : List ℚ) : List ℚ := v.take P

/-- Yaw slice `v[P:P+Y]` of a trajectory vector. -/
def yawSlice (P Y : ℕ) (v : List ℚ) : List ℚ := (v.drop P).take Y

/-- Trailing duration slice `v[-1:]` of a trajectory vector. -/
def timeSlice (v : List ℚ) : List ℚ := v.drop (v.length - 1)

/-- Entry `(b, i, j)` of `distance_pos_matrix`: MSE between the position slice
of expert hypothesis `i` and of predicted hypothesis `j`. -/
def distancePosMatrix (P : ℕ) (acts predActs : ℕ → ℕ → List ℚ) (b i j : ℕ) : ℚ :=
  mseMean (posSlice P (acts b i)) (posSlice P (predActs b j))

/-- Entry `(b, i, j)` of `distance_yaw_matrix`; the expert yaw slice is scaled
by `yaw_scaling` before comparison. -/
def distanceYawMatrix (P Y : ℕ) (yawScaling : ℚ) (acts predActs : ℕ → ℕ → List ℚ)
    (b i j : ℕ) : ℚ :=
  mseMean ((yawSlice P Y (acts b i)).map (fun a => a * yawScaling))
    (yawSlice P Y (predActs b j))

/-- Entry `(b, i, j)` of `distance_time_matrix`. -/
def distanceTimeMatrix (acts predActs : ℕ → ℕ → List ℚ) (b i j : ℕ) : ℚ :=
  mseMean (timeSlice (acts b i)) (timeSlice (predActs b j))

/-- Entry `(b, i, j)` of `distance_matrix` (full vectors). -/
def distanceFullMatrix (acts predActs : ℕ → ℕ → List ℚ) (b i j : ℕ) : ℚ :=
  mseMean (acts b i) (predActs b j)

/-- Entry `(b, i, j)` of `distance_pos_matrix_within_expert`: position-only MSE
between two expert hypotheses of the same sample. -/
def distancePosWithinExpert (P : ℕ) (acts : ℕ → ℕ → List ℚ) (b i j : ℕ) : ℚ :=
  mseMean (posSlice P (acts b i)) (posSlice P (acts b j))

/-- Inner loop of the duplicate detector for a fixed outer index `i`:
`is_repeated[:,j] = is_repeated[:,j] or (d i j < 1e-7)` for every `j > i`.
The parameter `j0` is the absolute index of the head of `rep`. -/
def orMarkFrom (d : ℕ → ℕ → ℚ) (i : ℕ) : ℕ → List Bool → List Bool
  | _, [] => []
  | j0, b :: rest =>
      (if i < j0 then b || decide (d i j0 < dupThreshold) else b) ::
        orMarkFrom d i (j0 + 1) rest

/-- The full double loop of the duplicate detector (`bc.py` lines 422-424),
starting from the all-false mask. -/
def isRepeatedList (K : ℕ) (d : ℕ → ℕ → ℚ) : List Bool :=
  (List.range K).foldl (fun rep i => orMarkFrom d i 0 rep) (List.replicate K false)

/-- Entry `j` of the duplicate mask produced by the loop. -/
def isRepeated (K : ℕ) (d : ℕ → ℕ → ℚ) (j : ℕ) : Bool :=
  (isRepeatedList K d).getD j false

/-- Duplicate mask of sample `b`, computed from the within-expert position
distances, as in the source. -/
def isRepeatedM (K P : ℕ) (acts : ℕ → ℕ → List ℚ) (b j : ℕ) : Bool :=
  isRepeated K (fun i j => distancePosWithinExpert P acts b i j) j

lemma orMarkFrom_length (d : ℕ → ℕ → ℚ) (i : ℕ) :
    ∀ (j0 : ℕ) (rep : List Bool), (orMarkFrom d i j0 rep).length = rep.length := by
  intro j0 rep
  induction rep generalizing j0 with
  | nil => rfl
  | cons b rest ih => simpa [orMarkFrom] using ih (j0 + 1)

lemma getD_orMarkFrom (d : ℕ → ℕ → ℚ) (i : ℕ) :
    ∀ (rep : List Bool) (j0 k : ℕ), k < rep.length →
      (orMarkFrom d i j0 rep).getD k false =
        if i < j0 + k then rep.getD k false || decide (d i (j0 + k) < dupThreshold)
        else rep.getD k false := by
  intro rep
  induction rep with
  | nil => intro j0 k hk; simp at hk
  | cons b rest ih =>
      intro j0 k hk
      cases k with
      | zero => simp [orMarkFrom]
      | succ k =>
          have hk' : k < rest.length := by simpa using hk
          have h1 : j0 + 1 + k = j0 + (k + 1) := by omega
          simpa [orMarkFrom, h1] using ih (j0 + 1) k hk'

lemma foldl_orMarkFrom (d : ℕ → ℕ → ℚ) :
    ∀ (L : List ℕ) (rep : List Bool) (k : ℕ), k < rep.length →
      (L.foldl (fun r i => orMarkFrom d i 0 r) rep).getD k false =
        (rep.getD k false ||
          L.any (fun i => decide (i < k) && decide (d i k < dupThreshold))) := by
  intro L
  induction L with
  | nil => intro rep k hk; simp
  | cons i L ih =>
      intro rep k hk
      have hlen : k < (orMarkFrom d i 0 rep).length := by
        rw [orMarkFrom_length]; exact hk
      have hstep := getD_orMarkFrom d i rep 0 k hk
      rw [List.foldl_cons, ih (orMarkFrom d i 0 rep) k hlen, hstep]
      by_cases hik : i < k
      · simp [hik, Bool.or_assoc]
      · simp [hik]

lemma getD_replicate_false : ∀ (K j : ℕ), (List.replicate K false).getD j false = false := by
  intro K
  induction K with
  | zero => intro j; cases j <;> rfl
  | succ K ih =>
      intro j
      cases j with
      | zero => rfl
      | succ j => exact ih j

/-- Closed form of the duplicate-detector loop: index `j` is marked exactly
when some strictly earlier index is within the threshold. -/
lemma isRepeated_iff (K : ℕ) (d : ℕ → ℕ → ℚ) (j : ℕ) (hj : j < K) :
    isRepeated K d j = true ↔ ∃ i, i < j ∧ d i j < dupThreshold := by
  have hlen : j < (List.replicate K false).length := by simpa using hj
  rw [isRepeated, isRepeatedList, foldl_orMarkFrom d (List.range K) _ j hlen]
  simp only [getD_replicate_false, Bool.false_or, List.any_eq_true, List.mem_range,
    Bool.and_eq_true, decide_eq_true_eq]
  constructor
  · rintro ⟨i, _, hij, hd⟩
    exact ⟨i, hij, hd⟩
  · rintro ⟨i, hij, hd⟩
    exact ⟨i, lt_trans hij hj, hij, hd⟩

/-- Index 0 is never marked as a duplicate. -/
lemma isRepeated_zero (K : ℕ) (d : ℕ → ℕ → ℚ) : isRepeated K d 0 = false := by
  rcases Nat.eq_zero_or_pos K with hK | hK
  · subst hK
    rfl
  · by_contra h
    have h' : isRepeated K d 0 = true := by
      cases hval : isRepeated K d 0
      · exact absurd hval h
      · rfl
    rcases (isRepeated_iff K d 0 hK).mp h' with ⟨i, hi, _⟩
    omega

/-- C6: for every sample, the duplicate mask marks index `j` exactly when some
earlier index `i < j` has position-only MSE distance to `j` below `1e-7`
(regardless of whether `i` is itself a duplicate); index 0 is never marked, and
when every later hypothesis duplicates the first, exactly one non-duplicate
survives. -/
theorem C6_duplicate_mask (K P : ℕ) (acts : ℕ → ℕ → List ℚ) (b : ℕ) (hK : 0 < K) :
    (∀ j, j < K →
      (isRepeatedM K P acts b j = true ↔
        ∃ i, i < j ∧ distancePosWithinExpert P acts b i j < dupThreshold))
    ∧ isRepeatedM K P acts b 0 = false
    ∧ ((∀ j, 0 < j → j < K → distancePosWithinExpert P acts b 0 j < dupThreshold) →
        ((List.range K).filter (fun j => !(isRepeatedM K P acts b j))).length = 1) := by
  refine ⟨fun j hj => isRepeated_iff K _ j hj, isRepeated_zero K _, fun hcol => ?_⟩
  obtain ⟨n, rfl⟩ : ∃ n, K = n + 1 := ⟨K - 1, by omega⟩
  rw [List.range_succ_eq_map, List.filter_cons]
  have h0 : isRepeatedM (n + 1) P acts b 0 = false := isRepeated_zero _ _
  have hrest : ((List.range n).map Nat.succ).filter
      (fun j => !(isRepeatedM (n + 1) P acts b j)) = [] := by
    rw [List.filter_eq_nil_iff]
    intro j hjmem
    rcases List.mem_map.mp hjmem with ⟨i, hi, rfl⟩
    have hiK : i.succ < n + 1 := by
      have := List.mem_range.mp hi; omega
    have hrep : isRepeatedM (n + 1) P acts b i.succ = true := by
      rw [isRepeatedM, isRepeated_iff _ _ _ hiK]
      exact ⟨0, Nat.succ_pos i, hcol i.succ (Nat.succ_pos i) hiK⟩
    simp [hrep]
  simp [h0, hrest]

/-- Witness for C6 at a concrete collapsed expert set: `K = 2`, `P = 1`, both
expert hypotheses equal, so exactly index 0 survives. -/
theorem C6_duplicate_mask_witness :
    (0 : ℕ) < 2 ∧
    (isRepeatedM 2 1 (fun _ _ => [0, 0, 0]) 0 1 = true ↔
      ∃ i, i < 1 ∧ distancePosWithinExpert 1 (fun _ _ => [0, 0, 0]) 0 i 1 < dupThreshold) ∧
    ((List.range 2).filter
      (fun j => !(isRepeatedM 2 1 (fun _ _ => [0, 0, 0]) 0 j))).length = 1 := by
  have h := C6_duplicate_mask 2 1 (fun _ _ => ([0, 0, 0] : List ℚ)) 0 (by decide)
  refine ⟨by decide, h.1 1 (by decide), h.2.2 ?_⟩
  intro j h0 hj
  interval_cases j
  · unfold distancePosWithinExpert mseMean posSlice dupThreshold
    norm_num

/-- First index attaining the minimum of `f` over `0, ..., K-1`, as returned by
`th.min(..., dim)` (ties resolve to the earliest index). -/
def argminFirst (f : ℕ → WithTop ℚ) (K : ℕ) : ℕ :=
  (List.range K).foldl (fun best i => if f i < f best then i else best) 0

/-- Entry `(i, c)` of `distance_pos_matrix_batch_tmp`: the per-sample position
distance matrix with every repeated expert row set to infinity. -/
def maskedDistance (d : ℕ → ℕ → ℚ) (rep : ℕ → Bool) (i c : ℕ) : WithTop ℚ :=
  if rep i then ⊤ else (d i c : WithTop ℚ)

/-- Indices of the expert rows kept after deleting repeated rows
(`cost_matrix = cost_matrix[is_repeated == False]`), in increasing order. -/
def nondupRows (K : ℕ) (rep : ℕ → Bool) : List ℕ :=
  (List.range K).filter (fun i => !(rep i))

/-- The value `num_diff_traj_expert = cost_matrix.shape[0]`. -/
def numDiffTrajExpert (K : ℕ) (rep : ℕ → Bool) : ℕ := (nondupRows K rep).length

/-- Entry `(i, c)` of the per-sample `A_RWTAc_matrix`: repeated rows are zeroed
last, each column's winning row (first argmin of the masked distances) holds
`1 - ε` (or `1` when only one distinct expert row exists), every other entry of
the column holds the base value `ε / (R - 1)` set by the bulk initialisation. -/
def ARWTAc (K : ℕ) (eps : ℚ) (d : ℕ → ℕ → ℚ) (rep : ℕ → Bool) (i c : ℕ) : ℚ :=
  if rep i then 0
  else if i = argminFirst (fun r => maskedDistance d rep r c) K then
    (if 1 < numDiffTrajExpert K rep then 1 - eps else 1)
  else
    (if 1 < numDiffTrajExpert K rep then eps / ((numDiffTrajExpert K rep : ℚ) - 1) else 0)

/-- Entry `(i, c)` of the per-sample `A_RWTAr_matrix`: repeated rows are zeroed
last, each row's winning column holds `1 - ε` (or `1` when only one predicted
column exists, `num_traj_student = cost_matrix.shape[1] = K`), every other
entry of the row holds `ε / (K - 1)`. -/
def ARWTAr (K : ℕ) (eps : ℚ) (d : ℕ → ℕ → ℚ) (rep : ℕ → Bool) (i c : ℕ) : ℚ :=
  if rep i then 0
  else if c = argminFirst (fun col => maskedDistance d rep i col) K then
    (if 1 < K then 1 - eps else 1)
  else
    (if 1 < K then eps / ((K : ℚ) - 1) else 0)

/-- Per-sample `A_RWTAc_matrix` of the pipeline, instantiated with the
position-distance matrix and the duplicate mask of sample `b`. -/
def ARWTAcM (K P : ℕ) (eps : ℚ) (acts predActs : ℕ → ℕ → List ℚ) (b i c : ℕ) : ℚ :=
  ARWTAc K eps (fun i c => distancePosMatrix P acts predActs b i c)
    (isRepeatedM K P acts b) i c

/-- Per-sample `A_RWTAr_matrix` of the pipeline. -/
def ARWTArM (K P : ℕ) (eps : ℚ) (acts predActs : ℕ → ℕ → List ℚ) (b i c : ℕ) : ℚ :=
  ARWTAr K eps (fun i c => distancePosMatrix P acts predActs b i c)
    (isRepeatedM K P acts b) i c

lemma argminFirst_lt (f : ℕ → WithTop ℚ) (K : ℕ) (hK : 0 < K) : argminFirst f K < K := by
  have main : ∀ (L : List ℕ) (best : ℕ), best < K → (∀ i ∈ L, i < K) →
      L.foldl (fun best i => if f i < f best then i else best) best < K := by
    intro L
    induction L with
    | nil => intro best hb _; exact hb
    | cons i L ih =>
        intro best hb hmem
        rw [List.foldl_cons]
        by_cases hfi : f i < f best
        · rw [if_pos hfi]
          exact ih i (hmem i (List.mem_cons_self i L)) (fun x hx => hmem x (List.mem_cons_of_mem i hx))
        · rw [if_neg hfi]
          exact ih best hb (fun x hx => hmem x (List.mem_cons_of_mem i hx))
  exact main (List.range K) 0 hK (fun i hi => List.mem_range.mp hi)

lemma argminFirst_min (f : ℕ → WithTop ℚ) (K : ℕ) :
    ∀ i, i < K → f (argminFirst f K) ≤ f i := by
  have main : ∀ (L : List ℕ) (best : ℕ),
      f (L.foldl (fun best i => if f i < f best then i else best) best) ≤ f best ∧
      ∀ i ∈ L, f (L.foldl (fun best i => if f i < f best then i else best) best) ≤ f i := by
    intro L
    induction L with
    | nil => intro best; exact ⟨le_refl _, fun i hi => absurd hi (List.not_mem_nil i)⟩
    | cons i L ih =>
        intro best
        rw [List.foldl_cons]
        by_cases hfi : f i < f best
        · rw [if_pos hfi]
          refine ⟨le_trans (ih i).1 (le_of_lt hfi), fun x hx => ?_⟩
          rcases List.mem_cons.mp hx with rfl | hx
          · exact (ih x).1
          · exact (ih i).2 x hx
        · rw [if_neg hfi]
          refine ⟨(ih best).1, fun x hx => ?_⟩
          rcases List.mem_cons.mp hx with rfl | hx
          · exact le_trans (ih best).1 (not_lt.mp hfi)
          · exact (ih best).2 x hx
  intro i hi
  exact (main (List.range K) 0).2 i (List.mem_range.mpr hi)

/-- If row 0 is not repeated, each column's winning row is itself a
non-repeated row (its masked distance is finite). -/
lemma winner_not_rep (d : ℕ → ℕ → ℚ) (rep : ℕ → Bool) (K c : ℕ) (hK : 0 < K)
    (h0 : rep 0 = false) :
    rep (argminFirst (fun r => maskedDistance d rep r c) K) = false := by
  by_contra h
  have hrep : rep (argminFirst (fun r => maskedDistance d rep r c) K) = true := by
    cases hval : rep (argminFirst (fun r => maskedDistance d rep r c) K)
    · exact absurd hval h
    · rfl
  have hle : maskedDistance d rep (argminFirst (fun r => maskedDistance d rep r c) K) c ≤
      maskedDistance d rep 0 c :=
    argminFirst_min (fun r => maskedDistance d rep r c) K 0 hK
  rw [maskedDistance, maskedDistance, hrep, h0] at hle
  simp at hle

lemma nondupRows_nodup (K : ℕ) (rep : ℕ → Bool) : (nondupRows K rep).Nodup :=
  (List.nodup_range K).filter _

lemma mem_nondupRows (K : ℕ) (rep : ℕ → Bool) (i : ℕ) :
    i ∈ nondupRows K rep ↔ i < K ∧ rep i = false := by
  simp [nondupRows, List.mem_filter]

/-- Column-sum invariant of the per-sample `A_RWTAc_matrix`: for any column,
the entries over the non-repeated rows sum to exactly 1. -/
lemma ARWTAc_col_sum (K : ℕ) (eps : ℚ) (d : ℕ → ℕ → ℚ) (rep : ℕ → Bool)
    (hK : 0 < K) (h0 : rep 0 = false) (c : ℕ) :
    ((nondupRows K rep).map (fun i => ARWTAc K eps d rep i c)).sum = 1 := by
  set w := argminFirst (fun r => maskedDistance d rep r c) K with hw
  have hwK : w < K := argminFirst_lt _ K hK
  have hwrep : rep w = false := winner_not_rep d rep K c hK h0
  have hwmem : w ∈ nondupRows K rep := (mem_nondupRows K rep w).mpr ⟨hwK, hwrep⟩
  have hperm : List.Perm (nondupRows K rep) (w :: (nondupRows K rep).erase w) :=
    List.perm_cons_erase hwmem
  rw [List.Perm.sum_eq (hperm.map (fun i => ARWTAc K eps d rep i c))]
  rw [List.map_cons, List.sum_cons]
  have hnodup := nondupRows_nodup K rep
  have hR1 : 1 ≤ numDiffTrajExpert K rep := by
    have := List.length_pos.mpr (List.ne_nil_of_mem hwmem)
    exact this
  have hwval : ARWTAc K eps d rep w c =
      (if 1 < numDiffTrajExpert K rep then 1 - eps else 1) := by
    simp [ARWTAc, hwrep, hw]
  have herase : ∀ x ∈ (nondupRows K rep).erase w,
      ARWTAc K eps d rep x c =
        (if 1 < numDiffTrajExpert K rep then
          eps / ((numDiffTrajExpert K rep : ℚ) - 1) else 0) := by
    intro x hx
    have hxmem : x ∈ nondupRows K rep := List.mem_of_mem_erase hx
    have hxw : x ≠ w := (List.Nodup.mem_erase_iff hnodup).mp hx |>.1
    have hxrep : rep x = false := ((mem_nondupRows K rep x).mp hxmem).2
    simp [ARWTAc, hxrep, hw, hxw]
  have hlen : ((nondupRows K rep).erase w).length = numDiffTrajExpert K rep - 1 := by
    rw [List.length_erase_of_mem hwmem]; rfl
  have hconst : (((nondupRows K rep).erase w).map (fun i => ARWTAc K eps d rep i c)).sum =
      ((numDiffTrajExpert K rep - 1 : ℕ) : ℚ) *
        (if 1 < numDiffTrajExpert K rep then
          eps / ((numDiffTrajExpert K rep : ℚ) - 1) else 0) := by
    have hall : ∀ q ∈ ((nondupRows K rep).erase w).map (fun i => ARWTAc K eps d rep i c),
        q = (if 1 < numDiffTrajExpert K rep then
          eps / ((numDiffTrajExpert K rep : ℚ) - 1) else 0) := by
      intro q hq
      rcases List.mem_map.mp hq with ⟨x, hx, rfl⟩
      exact herase x hx
    have hrepl := List.eq_replicate_of_mem hall
    rw [hrepl, List.sum_replicate, List.length_map, hlen, nsmul_eq_mul]
  rw [hwval, hconst]
  by_cases hR : 1 < numDiffTrajExpert K rep
  · rw [if_pos hR, if_pos hR]
    have h2 : (2 : ℚ) ≤ (numDiffTrajExpert K rep : ℚ) := by exact_mod_cast hR
    have hne : ((numDiffTrajExpert K rep : ℚ) - 1) ≠ 0 := by linarith
    have hcast : ((numDiffTrajExpert K rep - 1 : ℕ) : ℚ) =
        (numDiffTrajExpert K rep : ℚ) - 1 := by
      push_cast [hR1]
      ring
    rw [hcast]
    field_simp
  · rw [if_neg hR, if_neg hR]
    have : numDiffTrajExpert K rep = 1 := by omega
    rw [this]
    norm_num

lemma ARWTAc_rep_row_zero (K : ℕ) (eps : ℚ) (d : ℕ → ℕ → ℚ) (rep : ℕ → Bool)
    (i c : ℕ) (h : rep i = true) : ARWTAc K eps d rep i c = 0 := by
  simp [ARWTAc, h]

/-- C4: for every sample with `K > 1`, every column of the relaxed-column
(RWTAc) assignment matrix sums to exactly 1 over the non-duplicate expert
rows, and every duplicate expert row of the matrix is identically zero. -/
theorem C4_rwtac_invariant (K P : ℕ) (eps : ℚ) (acts predActs : ℕ → ℕ → List ℚ)
    (b c : ℕ) (hK : 1 < K) (_hc : c < K) :
    ((nondupRows K (isRepeatedM K P acts b)).map
      (fun i => ARWTAcM K P eps acts predActs b i c)).sum = 1
    ∧ (∀ i c', isRepeatedM K P acts b i = true →
        ARWTAcM K P eps acts predActs b i c' = 0) := by
  constructor
  · exact ARWTAc_col_sum K eps _ _ (lt_trans Nat.zero_lt_one hK)
      (isRepeated_zero K _) c
  · intro i c' h
    exact ARWTAc_rep_row_zero K eps _ _ i c' h

/-- Witness for C4 at a concrete sample: `K = 2`, `P = 1`, `ε = 1/20`, two
distinct expert hypotheses and two predicted hypotheses. -/
theorem C4_rwtac_invariant_witness :
    (1 : ℕ) < 2 ∧ (0 : ℕ) < 2 ∧
    ((nondupRows 2 (isRepeatedM 2 1 (fun _ i => if i = 0 then [0, 0, 0] else [1, 0, 0]) 0)).map
      (fun i => ARWTAcM 2 1 (1 / 20)
        (fun _ i => if i = 0 then [0, 0, 0] else [1, 0, 0])
        (fun _ j => if j = 0 then [0, 0, 0] else [1, 0, 0]) 0 i 0)).sum = 1 := by
  refine ⟨by decide, by decide, ?_⟩
  exact (C4_rwtac_invariant 2 1 (1 / 20)
    (fun _ i => if i = 0 then [0, 0, 0] else [1, 0, 0])
    (fun _ j => if j = 0 then [0, 0, 0] else [1, 0, 0]) 0 0
    (by decide) (by decide)).1

/-- All injective assignments of `r` reduced rows to columns below `C`: each
member is a length-`r` list of distinct column indices. `linear_sum_assignment`
returns one of minimum total cost. -/
def injectionsList : ℕ → ℕ → List (List ℕ)
  | 0, _ => [[]]
  | r + 1, C =>
      (List.range C).bind (fun c =>
        (injectionsList r C).filterMap (fun rest =>
          if c ∈ rest then none else some (c :: rest)))

/-- Total cost of an assignment: row `r` is matched to column `σ r`. -/
def assignCost (cf : ℕ → ℕ → ℚ) (σ : List ℕ) : ℚ :=
  (σ.mapIdx (fun r c => cf r c)).sum

/-- First minimiser of `cost` in a list of candidates. -/
def argminCostList (cost : List ℕ → ℚ) : List (List ℕ) → Option (List ℕ)
  | [] => none
  | x :: xs => some (xs.foldl (fun best y => if cost y < cost best then y else best) x)

/-- Model of `scipy.optimize.linear_sum_assignment` on an `R × C` cost matrix
with `R ≤ C`: an injective row-to-column assignment of minimum total cost
(row `r` of the result list holds the column assigned to reduced row `r`). -/
def linearSumAssignment (cf : ℕ → ℕ → ℚ) (R C : ℕ) : List ℕ :=
  (argminCostList (assignCost cf) (injectionsList R C)).getD []

/-- The solved `(map2RealRows[row_index], map2RealCols[col_index])` pairs that
receive weight 1 in `A_matrix`; `map2RealRows = nondupRows`, and
`map2RealCols` is the identity since no column is ever deleted. -/
def exactPairs (K : ℕ) (d : ℕ → ℕ → ℚ) (rep : ℕ → Bool) : List (ℕ × ℕ) :=
  (nondupRows K rep).zip
    (linearSumAssignment (fun r c => d ((nondupRows K rep).getD r 0) c)
      (numDiffTrajExpert K rep) K)

/-- Entry `(i, c)` of the per-sample `A_matrix`: all ones when `K = 1`
(the initialisation `th.ones` is never overwritten), otherwise 1 exactly at
the solved assignment pairs and 0 elsewhere. -/
def AExact (K : ℕ) (d : ℕ → ℕ → ℚ) (rep : ℕ → Bool) (i c : ℕ) : ℚ :=
  if 1 < K then (if (i, c) ∈ exactPairs K d rep then 1 else 0) else 1

/-- Per-sample `A_matrix` of the pipeline, instantiated with the position
distance matrix and the duplicate mask of sample `b`. -/
def AExactM (K P : ℕ) (acts predActs : ℕ → ℕ → List ℚ) (b i c : ℕ) : ℚ :=
  AExact K (fun i c => distancePosMatrix P acts predActs b i c)
    (isRepeatedM K P acts b) i c

lemma mem_injectionsList :
    ∀ {r C : ℕ} {σ : List ℕ}, σ ∈ injectionsList r C →
      σ.length = r ∧ σ.Nodup ∧ ∀ x ∈ σ, x < C := by
  intro r
  induction r with
  | zero =>
      intro C σ hσ
      rw [injectionsList, List.mem_singleton] at hσ
      subst hσ
      exact ⟨rfl, List.nodup_nil, fun x hx => absurd hx (List.not_mem_nil x)⟩
  | succ r ih =>
      intro C σ hσ
      rw [injectionsList, List.mem_bind] at hσ
      rcases hσ with ⟨c, hc, hmem⟩
      rcases List.mem_filterMap.mp hmem with ⟨rest, hrest, heq⟩
      by_cases hcr : c ∈ rest
      · rw [if_pos hcr] at heq; exact absurd heq (Option.noConfusion)
      · rw [if_neg hcr] at heq
        obtain rfl : c :: rest = σ := Option.some.inj heq
        rcases ih hrest with ⟨hlen, hnodup, hbound⟩
        refine ⟨by simp [hlen], List.nodup_cons.mpr ⟨hcr, hnodup⟩, ?_⟩
        intro x hx
        rcases List.mem_cons.mp hx with rfl | hx
        · exact List.mem_range.mp hc
        · exact hbound x hx

/-- The decreasing chain `[r-1, ..., 1, 0]`, a canonical member of
`injectionsList r C` whenever `r ≤ C`. -/
def descChain : ℕ → List ℕ
  | 0 => []
  | r + 1 => r :: descChain r

lemma descChain_lt : ∀ (r : ℕ) (x : ℕ), x ∈ descChain r → x < r := by
  intro r
  induction r with
  | zero => intro x hx; exact absurd hx (List.not_mem_nil x)
  | succ r ih =>
      intro x hx
      rcases List.mem_cons.mp hx with rfl | hx
      · omega
      · exact lt_trans (ih x hx) (Nat.lt_succ_self r)

lemma descChain_mem : ∀ (r C : ℕ), r ≤ C → descChain r ∈ injectionsList r C := by
  intro r
  induction r with
  | zero =>
      intro C _
      rw [injectionsList]
      exact List.mem_singleton.mpr rfl
  | succ r ih =>
      intro C hrC
      rw [injectionsList, List.mem_bind]
      refine ⟨r, List.mem_range.mpr (by omega), ?_⟩
      apply List.mem_filterMap.mpr
      refine ⟨descChain r, ih C (by omega), ?_⟩
      rw [if_neg (fun hmem => absurd (descChain_lt r r hmem) (lt_irrefl r))]
      rfl

lemma injectionsList_ne_nil (r C : ℕ) (h : r ≤ C) : injectionsList r C ≠ [] := by
  intro hnil
  have := descChain_mem r C h
  rw [hnil] at this
  exact absurd this (List.not_mem_nil _)

lemma foldl_min_mem (cost : List ℕ → ℚ) :
    ∀ (xs : List (List ℕ)) (best : List ℕ),
      (xs.foldl (fun b y => if cost y < cost b then y else b) best) = best ∨
      (xs.foldl (fun b y => if cost y < cost b then y else b) best) ∈ xs := by
  intro xs
  induction xs with
  | nil => intro best; exact Or.inl rfl
  | cons y ys ih =>
      intro best
      rw [List.foldl_cons]
      by_cases hy : cost y < cost best
      · rw [if_pos hy]
        rcases ih y with h | h
        · rw [h]; exact Or.inr (List.mem_cons_self y ys)
        · exact Or.inr (List.mem_cons_of_mem y h)
      · rw [if_neg hy]
        rcases ih best with h | h
        · exact Or.inl h
        · exact Or.inr (List.mem_cons_of_mem y h)

lemma linearSumAssignment_mem (cf : ℕ → ℕ → ℚ) (R C : ℕ) (h : R ≤ C) :
    linearSumAssignment cf R C ∈ injectionsList R C := by
  rw [linearSumAssignment]
  rcases hL : injectionsList R C with _ | ⟨x, xs⟩
  · exact absurd hL (injectionsList_ne_nil R C h)
  · rw [argminCostList]
    simp only [Option.getD_some]
    rcases foldl_min_mem (assignCost cf) xs x with heq | hmem
    · rw [heq]; exact List.mem_cons_self x xs
    · exact List.mem_cons_of_mem x hmem

lemma nondupRows_length_le (K : ℕ) (rep : ℕ → Bool) : numDiffTrajExpert K rep ≤ K := by
  have h := List.length_filter_le (fun i => !(rep i)) (List.range K)
  simpa [numDiffTrajExpert, nondupRows] using h

lemma exactPairs_assign_spec (K : ℕ) (d : ℕ → ℕ → ℚ) (rep : ℕ → Bool) :
    (linearSumAssignment (fun r c => d ((nondupRows K rep).getD r 0) c)
        (numDiffTrajExpert K rep) K).length = numDiffTrajExpert K rep ∧
    (∀ x ∈ linearSumAssignment (fun r c => d ((nondupRows K rep).getD r 0) c)
        (numDiffTrajExpert K rep) K, x < K) := by
  have h := mem_injectionsList
    (linearSumAssignment_mem (fun r c => d ((nondupRows K rep).getD r 0) c)
      (numDiffTrajExpert K rep) K (nondupRows_length_le K rep))
  exact ⟨h.1, h.2.2⟩

lemma exactPairs_length (K : ℕ) (d : ℕ → ℕ → ℚ) (rep : ℕ → Bool) :
    (exactPairs K d rep).length = numDiffTrajExpert K rep := by
  rw [exactPairs, List.length_zip, (exactPairs_assign_spec K d rep).1]
  exact Nat.min_self _

lemma nodup_zip_left : ∀ {l1 : List ℕ} (l2 : List ℕ), l1.Nodup → (l1.zip l2).Nodup := by
  intro l1
  induction l1 with
  | nil => intro l2 _; simp
  | cons a tl ih =>
      intro l2 hnodup
      cases l2 with
      | nil => simp
      | cons b tl2 =>
          rw [List.zip_cons_cons]
          refine List.nodup_cons.mpr ⟨?_, ih tl2 (List.nodup_cons.mp hnodup).2⟩
          intro hmem
          exact absurd (List.of_mem_zip hmem).1 (List.nodup_cons.mp hnodup).1

lemma mem_exactPairs_imp (K : ℕ) (d : ℕ → ℕ → ℚ) (rep : ℕ → Bool) (i c : ℕ)
    (h : (i, c) ∈ exactPairs K d rep) : i ∈ nondupRows K rep ∧ c < K := by
  rw [exactPairs] at h
  have hm := List.of_mem_zip h
  exact ⟨hm.1, (exactPairs_assign_spec K d rep).2 c hm.2⟩

lemma zip_exists_of_length_le :
    ∀ (l1 l2 : List ℕ), l1.length ≤ l2.length → ∀ a ∈ l1, ∃ b, (a, b) ∈ l1.zip l2 := by
  intro l1
  induction l1 with
  | nil => intro l2 _ a ha; exact absurd ha (List.not_mem_nil a)
  | cons x tl ih =>
      intro l2 hlen a ha
      cases l2 with
      | nil => simp at hlen
      | cons y tl2 =>
          rcases List.mem_cons.mp ha with rfl | ha
          · refine ⟨y, ?_⟩
            rw [List.zip_cons_cons]
            exact List.mem_cons_self _ _
          · rcases ih tl2 (by simpa using hlen) a ha with ⟨b, hb⟩
            refine ⟨b, ?_⟩
            rw [List.zip_cons_cons]
            exact List.mem_cons_of_mem _ hb

lemma zip_right_unique_of_nodup_left :
    ∀ (l1 l2 : List ℕ), l1.Nodup → ∀ (a b b' : ℕ),
      (a, b) ∈ l1.zip l2 → (a, b') ∈ l1.zip l2 → b = b' := by
  intro l1
  induction l1 with
  | nil => intro l2 _ a b b' hb; simp at hb
  | cons x tl ih =>
      intro l2 hnodup a b b' hb hb'
      cases l2 with
      | nil => simp at hb
      | cons y tl2 =>
          rw [List.zip_cons_cons] at hb hb'
          rcases List.mem_cons.mp hb with heq | hbt
          · have ha : a = x := congrArg Prod.fst heq
            have hby : b = y := congrArg Prod.snd heq
            rcases List.mem_cons.mp hb' with heq' | hb't
            · have hb'y : b' = y := congrArg Prod.snd heq'
              rw [hby, hb'y]
            · rw [ha] at hb't
              exact absurd (List.of_mem_zip hb't).1 (List.nodup_cons.mp hnodup).1
          · rcases List.mem_cons.mp hb' with heq' | hb't
            · have ha : a = x := congrArg Prod.fst heq'
              rw [ha] at hbt
              exact absurd (List.of_mem_zip hbt).1 (List.nodup_cons.mp hnodup).1
            · exact ih tl2 (List.nodup_cons.mp hnodup).2 a b b' hbt hb't

lemma exactPairs_nodup (K : ℕ) (d : ℕ → ℕ → ℚ) (rep : ℕ → Bool) :
    (exactPairs K d rep).Nodup :=
  nodup_zip_left _ (nondupRows_nodup K rep)

lemma exactPairs_toFinset_subset (K : ℕ) (d : ℕ → ℕ → ℚ) (rep : ℕ → Bool) :
    (exactPairs K d rep).toFinset ⊆ Finset.range K ×ˢ Finset.range K := by
  intro x hx
  rcases x with ⟨i, c⟩
  rw [List.mem_toFinset] at hx
  rcases mem_exactPairs_imp K d rep i c hx with ⟨hi, hc⟩
  rw [Finset.mem_product, Finset.mem_range, Finset.mem_range]
  exact ⟨((mem_nondupRows K rep i).mp hi).1, hc⟩

lemma exactPairs_filter_card (K : ℕ) (d : ℕ → ℕ → ℚ) (rep : ℕ → Bool) :
    ((Finset.range K ×ˢ Finset.range K).filter
      (fun x => x ∈ (exactPairs K d rep).toFinset)).card = numDiffTrajExpert K rep := by
  rw [Finset.filter_mem_eq_inter,
    Finset.inter_eq_right.mpr (exactPairs_toFinset_subset K d rep),
    List.toFinset_card_of_nodup (exactPairs_nodup K d rep), exactPairs_length]

lemma AExact_nonzero_iff (K : ℕ) (d : ℕ → ℕ → ℚ) (rep : ℕ → Bool) (i c : ℕ)
    (hK : 1 < K) : AExact K d rep i c ≠ 0 ↔ (i, c) ∈ exactPairs K d rep := by
  rw [AExact, if_pos hK]
  by_cases h : (i, c) ∈ exactPairs K d rep
  · simp [h]
  · simp [h]

/-- The number of nonzero entries of the per-sample `A_matrix` equals the
number of non-duplicate expert rows of the sample. -/
lemma AExact_nonzero_card (K : ℕ) (d : ℕ → ℕ → ℚ) (rep : ℕ → Bool) (hK : 1 < K) :
    ((Finset.range K ×ˢ Finset.range K).filter
      (fun x => AExact K d rep x.1 x.2 ≠ 0)).card = numDiffTrajExpert K rep := by
  have hfe : (Finset.range K ×ˢ Finset.range K).filter
      (fun x => AExact K d rep x.1 x.2 ≠ 0) =
        (Finset.range K ×ˢ Finset.range K).filter
      (fun x => x ∈ (exactPairs K d rep).toFinset) := by
    apply Finset.filter_congr
    intro x _
    rw [AExact_nonzero_iff K d rep x.1 x.2 hK, List.mem_toFinset, Prod.mk.eta]
  rw [hfe, exactPairs_filter_card]

lemma isRepeatedList_length (K : ℕ) (d : ℕ → ℕ → ℚ) :
    (isRepeatedList K d).length = K := by
  rw [isRepeatedList]
  have hfold : ∀ (L : List ℕ) (rep : List Bool),
      (L.foldl (fun r i => orMarkFrom d i 0 r) rep).length = rep.length := by
    intro L
    induction L with
    | nil => intro rep; rfl
    | cons i L ih => intro rep; rw [List.foldl_cons, ih, orMarkFrom_length]
  rw [hfold, List.length_replicate]

/-- Indices beyond the mask length are unmarked. -/
lemma isRepeated_of_le (K : ℕ) (d : ℕ → ℕ → ℚ) (j : ℕ) (h : K ≤ j) :
    isRepeated K d j = false := by
  rw [isRepeated]
  apply List.getD_eq_default
  rw [isRepeatedList_length]
  exact h

lemma nondupRows_one (rep : ℕ → Bool) (h0 : rep 0 = false) :
    nondupRows 1 rep = [0] := by
  rw [nondupRows]
  have hr : List.range 1 = [0] := by decide
  rw [hr]
  simp [h0]

/-- Sum of all entries of the per-sample `A_matrix` equals the number of
non-duplicate expert rows. -/
lemma AExact_sum (K : ℕ) (d : ℕ → ℕ → ℚ) (rep : ℕ → Bool) (hK : 0 < K)
    (h0 : rep 0 = false) :
    (∑ i in Finset.range K, ∑ c in Finset.range K, AExact K d rep i c)
      = (numDiffTrajExpert K rep : ℚ) := by
  by_cases h1 : 1 < K
  · rw [← Finset.sum_product' (Finset.range K) (Finset.range K)
      (fun i c => AExact K d rep i c)]
    have hcongr : ∀ x ∈ Finset.range K ×ˢ Finset.range K,
        AExact K d rep x.1 x.2 =
          if x ∈ (exactPairs K d rep).toFinset then (1 : ℚ) else 0 := by
      intro x _
      rw [AExact, if_pos h1]
      simp only [List.mem_toFinset, Prod.mk.eta]
    rw [Finset.sum_congr rfl hcongr, Finset.sum_boole, exactPairs_filter_card]
  · have hK1 : K = 1 := by omega
    subst hK1
    have hA : AExact 1 d rep 0 0 = 1 := by rw [AExact, if_neg h1]
    rw [numDiffTrajExpert, nondupRows_one rep h0]
    simp [hA]

lemma AExact_row_spec (K : ℕ) (d : ℕ → ℕ → ℚ) (rep : ℕ → Bool) (hK : 1 < K)
    (i : ℕ) (hi : i ∈ nondupRows K rep) :
    ∃ c, c < K ∧ AExact K d rep i c = 1 ∧
      ∀ c', c' < K → AExact K d rep i c' ≠ 0 → c' = c := by
  have hlen : (nondupRows K rep).length ≤
      (linearSumAssignment (fun r c => d ((nondupRows K rep).getD r 0) c)
        (numDiffTrajExpert K rep) K).length := by
    rw [(exactPairs_assign_spec K d rep).1]
    exact le_refl _
  rcases zip_exists_of_length_le (nondupRows K rep) _ hlen i hi with ⟨c, hc⟩
  have hcpair : (i, c) ∈ exactPairs K d rep := hc
  refine ⟨c, (mem_exactPairs_imp K d rep i c hcpair).2, ?_, ?_⟩
  · rw [AExact, if_pos hK, if_pos hcpair]
  · intro c' _ hne
    have hcpair' : (i, c') ∈ exactPairs K d rep :=
      (AExact_nonzero_iff K d rep i c' hK).mp hne
    exact zip_right_unique_of_nodup_left (nondupRows K rep) _
      (nondupRows_nodup K rep) i c' c hcpair' hcpair

lemma AExact_dup_row_zero (K : ℕ) (d : ℕ → ℕ → ℚ) (rep : ℕ → Bool) (hK : 1 < K)
    (i c : ℕ) (hrep : rep i = true) : AExact K d rep i c = 0 := by
  rw [AExact, if_pos hK, if_neg]
  intro hmem
  have := ((mem_nondupRows K rep i).mp (mem_exactPairs_imp K d rep i c hmem).1).2
  rw [this] at hrep
  exact Bool.false_ne_true hrep

/-- C5: for every sample, the sum of all entries of the Exact assignment
matrix equals the number of non-duplicate expert rows of that sample, each
non-duplicate expert row receives exactly one entry of weight 1 (surplus
predicted columns stay unassigned), and every duplicate row is all zero. -/
theorem C5_exact_matrix (K P : ℕ) (acts predActs : ℕ → ℕ → List ℚ) (b : ℕ)
    (hK : 0 < K) :
    (∑ i in Finset.range K, ∑ c in Finset.range K, AExactM K P acts predActs b i c)
      = (numDiffTrajExpert K (isRepeatedM K P acts b) : ℚ)
    ∧ (∀ i, i ∈ nondupRows K (isRepeatedM K P acts b) →
        ∃ c, c < K ∧ AExactM K P acts predActs b i c = 1 ∧
          ∀ c', c' < K → AExactM K P acts predActs b i c' ≠ 0 → c' = c)
    ∧ (∀ i c, isRepeatedM K P acts b i = true → AExactM K P acts predActs b i c = 0) := by
  refine ⟨AExact_sum K _ _ hK (isRepeated_zero K _), ?_, ?_⟩
  · intro i hi
    by_cases h1 : 1 < K
    · exact AExact_row_spec K _ _ h1 i hi
    · have hK1 : K = 1 := by omega
      subst hK1
      have h0 : isRepeatedM 1 P acts b 0 = false := isRepeated_zero 1 _
      rw [nondupRows_one (isRepeatedM 1 P acts b) h0] at hi
      have hi0 : i = 0 := List.mem_singleton.mp hi
      subst hi0
      refine ⟨0, Nat.zero_lt_one, ?_, ?_⟩
      · rw [AExactM, AExact, if_neg h1]
      · intro c' hc' _
        omega
  · intro i c hrep
    by_cases h1 : 1 < K
    · exact AExact_dup_row_zero K _ _ h1 i c hrep
    · have hK1 : K = 1 := by omega
      subst hK1
      exfalso
      rcases Nat.eq_zero_or_pos i with rfl | hipos
      · have h0 : isRepeatedM 1 P acts b 0 = false := isRepeated_zero 1 _
        exact Bool.false_ne_true (h0.symm.trans hrep)
      · have h0 : isRepeatedM 1 P acts b i = false := isRepeated_of_le 1 _ i hipos
        exact Bool.false_ne_true (h0.symm.trans hrep)

/-- Witness for C5 at a concrete sample with `K = 3` where expert hypotheses
0 and 2 coincide: the matrix sums to 2 non-duplicate rows. -/
theorem C5_exact_matrix_witness :
    (0 : ℕ) < 3 ∧
    (∑ i in Finset.range 3, ∑ c in Finset.range 3,
      AExactM 3 1 (fun _ i => if i = 1 then [5, 0, 0] else [0, 0, 0])
        (fun _ j => if j = 0 then [0, 0, 0] else [5, 0, 0]) 0 i c)
      = (numDiffTrajExpert 3
          (isRepeatedM 3 1 (fun _ i => if i = 1 then [5, 0, 0] else [0, 0, 0]) 0) : ℚ) := by
  refine ⟨by decide, ?_⟩
  exact (C5_exact_matrix 3 1 (fun _ i => if i = 1 then [5, 0, 0] else [0, 0, 0])
    (fun _ j => if j = 0 then [0, 0, 0] else [5, 0, 0]) 0 (by decide)).1

/-- The configured assignment variant (`self.type_loss`); any other string
hits `assert False`, so the configuration space is exactly these three. -/
inductive TypeLoss
  | Hung
  | RWTAr
  | RWTAc
deriving DecidableEq

/-- Configuration consumed by `BC._calculate_loss`: batch shape, slice sizes,
yaw scaling, RWTA relaxation strength, variant choice and the two head flags. -/
structure BCConfig where
  B : ℕ
  K : ℕ
  P : ℕ
  Y : ℕ
  yawScaling : ℚ
  epsilonRWTA : ℚ
  typeLoss : TypeLoss
  makeYawNN : Bool
  useClosedFormYawStudent : Bool

/-- Number of nonzero entries of one `K × K` sample slice. -/
def countNonzeroSample (K : ℕ) (A : ℕ → ℕ → ℚ) : ℕ :=
  ((Finset.range K ×ˢ Finset.range K).filter (fun x => A x.1 x.2 ≠ 0)).card

/-- The divisor `num_nonzero_A = th.count_nonzero(A_matrix)`: the nonzero
count of the Exact (Hungarian) assignment tensor over the whole batch. -/
def numNonzeroA (cfg : BCConfig) (acts predActs : ℕ → ℕ → List ℚ) : ℕ :=
  ∑ b in Finset.range cfg.B,
    countNonzeroSample cfg.K (fun i c => AExactM cfg.K cfg.P acts predActs b i c)

/-- The numerator `th.sum(A * D)` of a component loss over the whole batch. -/
def sumAD (B K : ℕ) (A D : ℕ → ℕ → ℕ → ℚ) : ℚ :=
  ∑ b in Finset.range B, ∑ i in Finset.range K, ∑ j in Finset.range K,
    A b i j * D b i j

/-- All scalars computed at the tail of `BC._calculate_loss`. -/
structure LossOutput where
  posLoss : ℚ
  yawLoss : ℚ
  timeLoss : ℚ
  posLossRWTAr : ℚ
  yawLossRWTAr : ℚ
  timeLossRWTAr : ℚ
  posLossRWTAc : ℚ
  yawLossRWTAc : ℚ
  timeLossRWTAc : ℚ
  lossHungarian : ℚ
  lossRWTAr : ℚ
  lossRWTAc : ℚ
  loss : ℚ

/-- Model of the non-stochastic branch of `BC._calculate_loss`. Every one of
the nine component losses divides by `num_nonzero_A`, the nonzero count of the
Exact matrix. The result is `none` when `K ≤ 1`: the source then skips the
`num_of_traj_per_action > 1` block that assigns `A_RWTAr_matrix` and
`A_RWTAc_matrix`, so the later `pos_loss_RWTAr` line raises
`UnboundLocalError` before any loss is returned. -/
def calculateLoss (cfg : BCConfig) (acts predActs : ℕ → ℕ → List ℚ) :
    Option LossOutput :=
  let dPos : ℕ → ℕ → ℕ → ℚ := fun b i j => distancePosMatrix cfg.P acts predActs b i j
  let dYaw : ℕ → ℕ → ℕ → ℚ :=
    fun b i j => distanceYawMatrix cfg.P cfg.Y cfg.yawScaling acts predActs b i j
  let dTime : ℕ → ℕ → ℕ → ℚ := fun b i j => distanceTimeMatrix acts predActs b i j
  let AE : ℕ → ℕ → ℕ → ℚ := fun b i c => AExactM cfg.K cfg.P acts predActs b i c
  let nnz : ℚ := (numNonzeroA cfg acts predActs : ℚ)
  let posLoss := sumAD cfg.B cfg.K AE dPos / nnz
  let yawLoss := sumAD cfg.B cfg.K AE dYaw / nnz
  let timeLoss := sumAD cfg.B cfg.K AE dTime / nnz
  if 1 < cfg.K then
    let AR : ℕ → ℕ → ℕ → ℚ :=
      fun b i c => ARWTArM cfg.K cfg.P cfg.epsilonRWTA acts predActs b i c
    let AC : ℕ → ℕ → ℕ → ℚ :=
      fun b i c => ARWTAcM cfg.K cfg.P cfg.epsilonRWTA acts predActs b i c
    let posLossRWTAr := sumAD cfg.B cfg.K AR dPos / nnz
    let yawLossRWTAr := sumAD cfg.B cfg.K AR dYaw / nnz
    let timeLossRWTAr := sumAD cfg.B cfg.K AR dTime / nnz
    let posLossRWTAc := sumAD cfg.B cfg.K AC dPos / nnz
    let yawLossRWTAc := sumAD cfg.B cfg.K AC dYaw / nnz
    let timeLossRWTAc := sumAD cfg.B cfg.K AC dTime / nnz
    let lossHungarian := timeLoss + (if cfg.makeYawNN then 0 else posLoss) +
      (if cfg.useClosedFormYawStudent then 0 else yawLoss)
    let lossRWTAr := timeLossRWTAr + (if cfg.makeYawNN then 0 else posLossRWTAr) +
      (if cfg.useClosedFormYawStudent then 0 else yawLossRWTAr)
    let lossRWTAc := timeLossRWTAc + (if cfg.makeYawNN then 0 else posLossRWTAc) +
      (if cfg.useClosedFormYawStudent then 0 else yawLossRWTAc)
    let loss := match cfg.typeLoss with
      | TypeLoss.Hung => lossHungarian
      | TypeLoss.RWTAr => lossRWTAr
      | TypeLoss.RWTAc => lossRWTAc
    some ⟨posLoss, yawLoss, timeLoss, posLossRWTAr, yawLossRWTAr, timeLossRWTAr,
      posLossRWTAc, yawLossRWTAc, timeLossRWTAc, lossHungarian, lossRWTAr,
      lossRWTAc, loss⟩
  else none

/-- C2: in a batch with `K = 1` the Exact matrix is the 1 by 1 all-ones
matrix, but `_calculate_loss` does not successfully compute the relaxed
variants: it aborts (modelled as `none`), because `A_RWTAr_matrix` and
`A_RWTAc_matrix` are assigned only inside the `num_of_traj_per_action > 1`
branch while the dead `A_WTA_matrix = th.ones(...)` fallback shows the
intended 1 by 1 weight-1 matrix. Concretely at `B = 1`, `K = 1`,
`acts = predActs = [[3, 4, 5]]`. -/
theorem C2_k1_loss_crash :
    AExactM 1 1 (fun _ _ => [3, 4, 5]) (fun _ _ => [3, 4, 5]) 0 0 0 = 1
    ∧ calculateLoss
        { B := 1, K := 1, P := 1, Y := 1, yawScaling := 1, epsilonRWTA := 1 / 20,
          typeLoss := TypeLoss.Hung, makeYawNN := false,
          useClosedFormYawStudent := false }
        (fun _ _ => [3, 4, 5]) (fun _ _ => [3, 4, 5]) = none := by
  exact ⟨rfl, rfl⟩

lemma calculateLoss_isSome (cfg : BCConfig) (acts predActs : ℕ → ℕ → List ℚ)
    (hK : 1 < cfg.K) : ∃ out, calculateLoss cfg acts predActs = some out := by
  simp only [calculateLoss, if_pos hK]
  exact ⟨_, rfl⟩

/-- Explicit component values of every loss returned by `_calculate_loss`:
each of the nine component losses divides `th.sum(A * D)` by `num_nonzero_A`,
the nonzero count of the Exact matrix, for all three variants. -/
lemma calculateLoss_fields (cfg : BCConfig) (acts predActs : ℕ → ℕ → List ℚ)
    (out : LossOutput) (h : calculateLoss cfg acts predActs = some out) :
    1 < cfg.K
    ∧ out.posLoss = sumAD cfg.B cfg.K
        (fun b i c => AExactM cfg.K cfg.P acts predActs b i c)
        (fun b i j => distancePosMatrix cfg.P acts predActs b i j) /
        (numNonzeroA cfg acts predActs : ℚ)
    ∧ out.yawLoss = sumAD cfg.B cfg.K
        (fun b i c => AExactM cfg.K cfg.P acts predActs b i c)
        (fun b i j => distanceYawMatrix cfg.P cfg.Y cfg.yawScaling acts predActs b i j) /
        (numNonzeroA cfg acts predActs : ℚ)
    ∧ out.timeLoss = sumAD cfg.B cfg.K
        (fun b i c => AExactM cfg.K cfg.P acts predActs b i c)
        (fun b i j => distanceTimeMatrix acts predActs b i j) /
        (numNonzeroA cfg acts predActs : ℚ)
    ∧ out.posLossRWTAr = sumAD cfg.B cfg.K
        (fun b i c => ARWTArM cfg.K cfg.P cfg.epsilonRWTA acts predActs b i c)
        (fun b i j => distancePosMatrix cfg.P acts predActs b i j) /
        (numNonzeroA cfg acts predActs : ℚ)
    ∧ out.yawLossRWTAr = sumAD cfg.B cfg.K
        (fun b i c => ARWTArM cfg.K cfg.P cfg.epsilonRWTA acts predActs b i c)
        (fun b i j => distanceYawMatrix cfg.P cfg.Y cfg.yawScaling acts predActs b i j) /
        (numNonzeroA cfg acts predActs : ℚ)
    ∧ out.timeLossRWTAr = sumAD cfg.B cfg.K
        (fun b i c => ARWTArM cfg.K cfg.P cfg.epsilonRWTA acts predActs b i c)
        (fun b i j => distanceTimeMatrix acts predActs b i j) /
        (numNonzeroA cfg acts predActs : ℚ)
    ∧ out.posLossRWTAc = sumAD cfg.B cfg.K
        (fun b i c => ARWTAcM cfg.K cfg.P cfg.epsilonRWTA acts predActs b i c)
        (fun b i j => distancePosMatrix cfg.P acts predActs b i j) /
        (numNonzeroA cfg acts predActs : ℚ)
    ∧ out.yawLossRWTAc = sumAD cfg.B cfg.K
        (fun b i c => ARWTAcM cfg.K cfg.P cfg.epsilonRWTA acts predActs b i c)
        (fun b i j => distanceYawMatrix cfg.P cfg.Y cfg.yawScaling acts predActs b i j) /
        (numNonzeroA cfg acts predActs : ℚ)
    ∧ out.timeLossRWTAc = sumAD cfg.B cfg.K
        (fun b i c => ARWTAcM cfg.K cfg.P cfg.epsilonRWTA acts predActs b i c)
        (fun b i j => distanceTimeMatrix acts predActs b i j) /
        (numNonzeroA cfg acts predActs : ℚ) := by
  by_cases hK : 1 < cfg.K
  · simp only [calculateLoss, if_pos hK] at h
    have hout := Option.some.inj h
    exact ⟨hK, by rw [← hout], by rw [← hout], by rw [← hout], by rw [← hout],
      by rw [← hout], by rw [← hout], by rw [← hout], by rw [← hout], by rw [← hout]⟩
  · simp only [calculateLoss, if_neg hK] at h
    exact absurd h (by simp)

/-- C1 (amended): every one of the nine component losses equals the batch sum
of `A * D` divided by the nonzero count of the EXACT matrix (`num_nonzero_A`),
for all three variants alike, and that count equals the total number of
non-duplicate expert hypotheses over the batch. -/
theorem C1_component_loss_normalisation (cfg : BCConfig)
    (acts predActs : ℕ → ℕ → List ℚ) (out : LossOutput)
    (h : calculateLoss cfg acts predActs = some out) :
    numNonzeroA cfg acts predActs =
      ∑ b in Finset.range cfg.B,
        numDiffTrajExpert cfg.K (isRepeatedM cfg.K cfg.P acts b)
    ∧ out.posLoss = sumAD cfg.B cfg.K
        (fun b i c => AExactM cfg.K cfg.P acts predActs b i c)
        (fun b i j => distancePosMatrix cfg.P acts predActs b i j) /
        (numNonzeroA cfg acts predActs : ℚ)
    ∧ out.posLossRWTAr = sumAD cfg.B cfg.K
        (fun b i c => ARWTArM cfg.K cfg.P cfg.epsilonRWTA acts predActs b i c)
        (fun b i j => distancePosMatrix cfg.P acts predActs b i j) /
        (numNonzeroA cfg acts predActs : ℚ)
    ∧ out.posLossRWTAc = sumAD cfg.B cfg.K
        (fun b i c => ARWTAcM cfg.K cfg.P cfg.epsilonRWTA acts predActs b i c)
        (fun b i j => distancePosMatrix cfg.P acts predActs b i j) /
        (numNonzeroA cfg acts predActs : ℚ)
    ∧ out.yawLoss = sumAD cfg.B cfg.K
        (fun b i c => AExactM cfg.K cfg.P acts predActs b i c)
        (fun b i j => distanceYawMatrix cfg.P cfg.Y cfg.yawScaling acts predActs b i j) /
        (numNonzeroA cfg acts predActs : ℚ)
    ∧ out.timeLoss = sumAD cfg.B cfg.K
        (fun b i c => AExactM cfg.K cfg.P acts predActs b i c)
        (fun b i j => distanceTimeMatrix acts predActs b i j) /
        (numNonzeroA cfg acts predActs : ℚ)
    ∧ out.yawLossRWTAr = sumAD cfg.B cfg.K
        (fun b i c => ARWTArM cfg.K cfg.P cfg.epsilonRWTA acts predActs b i c)
        (fun b i j => distanceYawMatrix cfg.P cfg.Y cfg.yawScaling acts predActs b i j) /
        (numNonzeroA cfg acts predActs : ℚ)
    ∧ out.timeLossRWTAr = sumAD cfg.B cfg.K
        (fun b i c => ARWTArM cfg.K cfg.P cfg.epsilonRWTA acts predActs b i c)
        (fun b i j => distanceTimeMatrix acts predActs b i j) /
        (numNonzeroA cfg acts predActs : ℚ)
    ∧ out.yawLossRWTAc = sumAD cfg.B cfg.K
        (fun b i c => ARWTAcM cfg.K cfg.P cfg.epsilonRWTA acts predActs b i c)
        (fun b i j => distanceYawMatrix cfg.P cfg.Y cfg.yawScaling acts predActs b i j) /
        (numNonzeroA cfg acts predActs : ℚ)
    ∧ out.timeLossRWTAc = sumAD cfg.B cfg.K
        (fun b i c => ARWTAcM cfg.K cfg.P cfg.epsilonRWTA acts predActs b i c)
        (fun b i j => distanceTimeMatrix acts predActs b i j) /
        (numNonzeroA cfg acts predActs : ℚ) := by
  rcases calculateLoss_fields cfg acts predActs out h with
    ⟨hK, h1, h2, h3, h4, h5, h6, h7, h8, h9⟩
  refine ⟨?_, h1, h4, h7, h2, h3, h5, h6, h8, h9⟩
  rw [numNonzeroA]
  apply Finset.sum_congr rfl
  intro b _
  have hb := AExact_nonzero_card cfg.K
    (fun i c => distancePosMatrix cfg.P acts predActs b i c)
    (isRepeatedM cfg.K cfg.P acts b) hK
  exact hb

/-- Concrete batch for the C1 analysis: one sample, two distinct expert
hypotheses, predictions identical to the experts. -/
def cexActs : ℕ → ℕ → List ℚ := fun _ i => if i = 0 then [0, 0, 0] else [1, 0, 0]

/-- Concrete configuration for the C1 analysis: `B = 1`, `K = 2`, `P = Y = 1`,
`ε = 1/20`, chosen variant RWTAc. -/
def cexCfg : BCConfig :=
  { B := 1, K := 2, P := 1, Y := 1, yawScaling := 1, epsilonRWTA := 1 / 20,
    typeLoss := TypeLoss.RWTAc, makeYawNN := false,
    useClosedFormYawStudent := false }

lemma argminFirst_two (f : ℕ → WithTop ℚ) : argminFirst f 2 = if f 1 < f 0 then 1 else 0 := by
  rw [argminFirst]
  have hr2 : List.range 2 = [0, 1] := by decide
  rw [hr2]
  simp only [List.foldl_cons, List.foldl_nil, ite_self]

lemma cex_d00 : distancePosMatrix 1 cexActs cexActs 0 0 0 = 0 := by
  norm_num [distancePosMatrix, mseMean, posSlice, cexActs]

lemma cex_d01 : distancePosMatrix 1 cexActs cexActs 0 0 1 = 1 := by
  norm_num [distancePosMatrix, mseMean, posSlice, cexActs]

lemma cex_d10 : distancePosMatrix 1 cexActs cexActs 0 1 0 = 1 := by
  norm_num [distancePosMatrix, mseMean, posSlice, cexActs]

lemma cex_d11 : distancePosMatrix 1 cexActs cexActs 0 1 1 = 0 := by
  norm_num [distancePosMatrix, mseMean, posSlice, cexActs]

lemma cex_rep0 : isRepeatedM 2 1 cexActs 0 0 = false := isRepeated_zero 2 _

lemma cex_rep1 : isRepeatedM 2 1 cexActs 0 1 = false := by
  rw [Bool.eq_false_iff]
  intro h
  rcases (isRepeated_iff 2
      (fun i j => distancePosWithinExpert 1 cexActs 0 i j) 1 (by norm_num)).mp h with
    ⟨i, hi, hdist⟩
  interval_cases i
  norm_num [distancePosWithinExpert, mseMean, posSlice, cexActs, dupThreshold] at hdist

lemma cex_nondup : nondupRows 2 (isRepeatedM 2 1 cexActs 0) = [0, 1] := by
  rw [nondupRows]
  have hr2 : List.range 2 = [0, 1] := by decide
  rw [hr2]
  simp [cex_rep0, cex_rep1]

lemma cex_R : numDiffTrajExpert 2 (isRepeatedM 2 1 cexActs 0) = 2 := by
  rw [numDiffTrajExpert, cex_nondup]
  rfl

lemma cex_am0 :
    argminFirst (fun r => maskedDistance
      (fun i c => distancePosMatrix 1 cexActs cexActs 0 i c)
      (isRepeatedM 2 1 cexActs 0) r 0) 2 = 0 := by
  rw [argminFirst_two, if_neg]
  simp only [maskedDistance, cex_rep0, cex_rep1, cex_d00, cex_d10]
  norm_num

lemma cex_am1 :
    argminFirst (fun r => maskedDistance
      (fun i c => distancePosMatrix 1 cexActs cexActs 0 i c)
      (isRepeatedM 2 1 cexActs 0) r 1) 2 = 1 := by
  rw [argminFirst_two, if_pos]
  simp only [maskedDistance, cex_rep0, cex_rep1, cex_d01, cex_d11]
  norm_num

lemma cex_A00 : ARWTAcM 2 1 (1 / 20) cexActs cexActs 0 0 0 = 19 / 20 := by
  rw [ARWTAcM, ARWTAc]
  simp only [cex_rep0, cex_am0, cex_R]
  norm_num

lemma cex_A10 : ARWTAcM 2 1 (1 / 20) cexActs cexActs 0 1 0 = 1 / 20 := by
  rw [ARWTAcM, ARWTAc]
  simp only [cex_rep1, cex_am0, cex_R]
  norm_num

lemma cex_A01 : ARWTAcM 2 1 (1 / 20) cexActs cexActs 0 0 1 = 1 / 20 := by
  rw [ARWTAcM, ARWTAc]
  simp only [cex_rep0, cex_am1, cex_R]
  norm_num

lemma cex_A11 : ARWTAcM 2 1 (1 / 20) cexActs cexActs 0 1 1 = 19 / 20 := by
  rw [ARWTAcM, ARWTAc]
  simp only [cex_rep1, cex_am1, cex_R]
  norm_num

lemma cex_sumAC : sumAD 1 2
    (fun b i c => ARWTAcM 2 1 (1 / 20) cexActs cexActs b i c)
    (fun b i j => distancePosMatrix 1 cexActs cexActs b i j) = 1 / 10 := by
  rw [sumAD]
  simp only [Finset.sum_range_succ, Finset.sum_range_zero, zero_add]
  rw [cex_A00, cex_A01, cex_A10, cex_A11, cex_d00, cex_d01, cex_d10, cex_d11]
  norm_num

lemma cex_countAC : countNonzeroSample 2
    (fun i c => ARWTAcM 2 1 (1 / 20) cexActs cexActs 0 i c) = 4 := by
  rw [countNonzeroSample, Finset.filter_true_of_mem]
  · rw [Finset.card_product, Finset.card_range]
  · intro x hx
    rw [Finset.mem_product, Finset.mem_range, Finset.mem_range] at hx
    obtain ⟨i, c⟩ := x
    obtain ⟨hi, hc⟩ := hx
    interval_cases i <;> interval_cases c <;>
      simp only [cex_A00, cex_A01, cex_A10, cex_A11] <;> norm_num

lemma cex_numNonzeroA : numNonzeroA cexCfg cexActs cexActs = 2 := by
  rw [numNonzeroA]
  show (∑ b in Finset.range 1, countNonzeroSample 2
    (fun i c => AExactM 2 1 cexActs cexActs b i c)) = 2
  rw [Finset.sum_range_succ, Finset.sum_range_zero, zero_add]
  have hb := AExact_nonzero_card 2
    (fun i c => distancePosMatrix 1 cexActs cexActs 0 i c)
    (isRepeatedM 2 1 cexActs 0) (by norm_num)
  rw [cex_R] at hb
  exact hb

/-- C1 counterexample: at the concrete `cexCfg`/`cexActs` batch the computed
RWTAc position loss is `1/20`, but dividing the same weighted sum by the
nonzero count of the RWTAc matrix itself (as the claim states) gives `1/40`. -/
theorem C1_chosen_matrix_normalisation_cex :
    (calculateLoss cexCfg cexActs cexActs).map LossOutput.posLossRWTAc = some (1 / 20)
    ∧ sumAD 1 2 (fun b i c => ARWTAcM 2 1 (1 / 20) cexActs cexActs b i c)
        (fun b i j => distancePosMatrix 1 cexActs cexActs b i j) /
        ((∑ b in Finset.range 1, countNonzeroSample 2
          (fun i c => ARWTAcM 2 1 (1 / 20) cexActs cexActs b i c) : ℕ) : ℚ) = 1 / 40
    ∧ (1 / 20 : ℚ) ≠ 1 / 40 := by
  refine ⟨?_, ?_, by norm_num⟩
  · obtain ⟨out, hout⟩ := calculateLoss_isSome cexCfg cexActs cexActs (by decide)
    rcases calculateLoss_fields cexCfg cexActs cexActs out hout with
      ⟨_, _, _, _, _, _, _, h7, _, _⟩
    rw [hout, Option.map_some']
    have hval : out.posLossRWTAc = 1 / 20 := by
      rw [h7, cex_numNonzeroA]
      show sumAD 1 2 (fun b i c => ARWTAcM 2 1 (1 / 20) cexActs cexActs b i c)
        (fun b i j => distancePosMatrix 1 cexActs cexActs b i j) / ((2 : ℕ) : ℚ) = 1 / 20
      rw [cex_sumAC]
      norm_num
    rw [hval]
  · have hcnt : (∑ b in Finset.range 1, countNonzeroSample 2
        (fun i c => ARWTAcM 2 1 (1 / 20) cexActs cexActs b i c)) = 4 := by
      rw [Finset.sum_range_succ, Finset.sum_range_zero, zero_add, cex_countAC]
    rw [hcnt, cex_sumAC]
    norm_num

/-- Witness for the amended C1 at the concrete `cexCfg`/`cexActs` batch:
`num_nonzero_A` equals the batch total of non-duplicate expert hypotheses. -/
theorem C1_component_loss_normalisation_witness :
    numNonzeroA cexCfg cexActs cexActs =
      ∑ b in Finset.range 1, numDiffTrajExpert 2 (isRepeatedM 2 1 cexActs b) := by
  obtain ⟨out, hout⟩ := calculateLoss_isSome cexCfg cexActs cexActs (by decide)
  exact (C1_component_loss_normalisation cexCfg cexActs cexActs out hout).1

/-- One step record added to a partial-trajectory buffer; a field is `some`
exactly when the corresponding key is present in the Python step dict.
Observations, actions, rewards and info records are opaque integer payloads
(an info record is identified with the terminal observation it carries). -/
structure StepRec where
  obs : Option ℤ
  acts : Option ℤ
  rews : Option ℤ
  infos : Option ℤ
deriving DecidableEq

/-- The check `list(record.keys()) == ["obs"]`: only the observation key. -/
def obsOnly (r : StepRec) : Bool :=
  r.obs.isSome && r.acts.isNone && r.rews.isNone && r.infos.isNone

/-- `partial_trajectories`: a dict from slot key to its buffered records;
`none` means the key is absent. -/
def AccState : Type := ℕ → Option (List StepRec)

/-- A fresh accumulator (the empty defaultdict). -/
def emptyAcc : AccState := fun _ => none

/-- `add_step(step_dict, key)`: appends unconditionally; an absent key is
created with the empty buffer first (defaultdict semantics). It never fails. -/
def addStep (acc : AccState) (key : ℕ) (r : StepRec) : AccState :=
  fun k => if k = key then some (((acc key).getD []) ++ [r]) else acc k

/-- A completed `TrajectoryWithRew`. -/
structure Traj where
  obs : List ℤ
  acts : List ℤ
  rews : List ℤ
  infos : List ℤ
  terminal : Bool
deriving DecidableEq

instance : Inhabited Traj := ⟨⟨[], [], [], [], false⟩⟩

/-- `finish_trajectory(key, terminal)`: pops the buffer, stacks each present
field, builds the trajectory and asserts
`rews.shape[0] == acts.shape[0] == obs.shape[0] - 1`; `none` models the
failure of that assertion, or of the construction itself when the buffer
holds no full step (an empty or seed-only buffer cannot be stacked into a
`TrajectoryWithRew`). -/
def finishTrajectory (acc : AccState) (key : ℕ) (terminal : Bool) :
    Option (Traj × AccState) :=
  let part := (acc key).getD []
  let acc' : AccState := fun k => if k = key then none else acc k
  let obsL := part.filterMap (fun r => r.obs)
  let actsL := part.filterMap (fun r => r.acts)
  let rewsL := part.filterMap (fun r => r.rews)
  let infosL := part.filterMap (fun r => r.infos)
  if 0 < actsL.length ∧ obsL.length = actsL.length + 1 ∧ rewsL.length = actsL.length
  then some (⟨obsL, actsL, rewsL, infosL, terminal⟩, acc')
  else none

/-- The precondition asserted by `add_steps_and_auto_finish` for slot `i`:
the key exists and the first buffered record is observation-only. -/
def seededOk (acc : AccState) (i : ℕ) : Bool :=
  match acc i with
  | some (r :: _) => obsOnly r
  | _ => false

/-- One tuple of `zip(acts, obs, rews, dones, infos)`. -/
structure StepTuple where
  act : ℤ
  ob : ℤ
  rew : ℤ
  done : Bool
  info : ℤ
deriving DecidableEq

instance : Inhabited StepTuple := ⟨⟨0, 0, 0, false, 0⟩⟩

/-- Python `zip` over the five step streams (truncates to the shortest). -/
def zipStep : List ℤ → List ℤ → List ℤ → List Bool → List ℤ → List StepTuple
  | a :: ta, o :: tb, r :: tc, d :: td, i :: te =>
      ⟨a, o, r, d, i⟩ :: zipStep ta tb tc td te
  | _, _, _, _, _ => []

/-- The loop of `add_steps_and_auto_finish` over the zipped step tuples
starting at slot `idx`: adds the full record (with the terminal observation
from `infos` when done), and on `done` finalises the trajectory with
`terminal = True` and immediately reseeds the slot with the post-reset
observation. -/
def autoFinishWorker : ℕ → List StepTuple → AccState →
    Option (List (ℕ × Traj) × AccState)
  | _, [], acc => some ([], acc)
  | idx, t :: rest, acc =>
      let realOb := if t.done then t.info else t.ob
      let acc1 := addStep acc idx ⟨some realOb, some t.act, some t.rew, some t.info⟩
      if t.done then
        match finishTrajectory acc1 idx true with
        | none => none
        | some (traj, acc2) =>
            match autoFinishWorker (idx + 1) rest
                (addStep acc2 idx ⟨some t.ob, none, none, none⟩) with
            | none => none
            | some (ts, accF) => some ((idx, traj) :: ts, accF)
      else autoFinishWorker (idx + 1) rest acc1

/-- `add_steps_and_auto_finish`: first asserts that every slot index below
`len(obs)` is seeded with an observation-only first record, then runs the
loop over the zipped streams. -/
def addStepsAndAutoFinish (acts obs rews : List ℤ) (dones : List Bool)
    (infos : List ℤ) (acc : AccState) : Option (List (ℕ × Traj) × AccState) :=
  if (List.range obs.length).all (fun i => seededOk acc i) then
    autoFinishWorker 0 (zipStep acts obs rews dones infos) acc
  else none

/-- C3 counterexample: `add_step` on a fresh key whose very first record
holds an action and no observation does not fail; it creates the buffer and
appends the record. -/
theorem C3_add_step_fresh_key_cex :
    addStep emptyAcc 0 ⟨none, some 7, none, none⟩ 0 =
      some [⟨none, some 7, none, none⟩] := rfl

/-- C3 (amended): `add_step` itself never fails; it appends unconditionally
even when the very first record under a fresh key is not observation-only.
The seeding requirement is instead enforced by `add_steps_and_auto_finish`,
whose precondition assertion fails whenever some slot below `len(obs)` is
unseeded or has a first record that is not observation-only. -/
theorem C3_seeding_enforced_at_auto_finish (acts obs rews : List ℤ)
    (dones : List Bool) (infos : List ℤ) (acc acc0 : AccState) (key : ℕ)
    (r : StepRec) :
    (addStep acc0 key r) key = some ((acc0 key).getD [] ++ [r])
    ∧ ((∃ i, i < obs.length ∧ seededOk acc i = false) →
        addStepsAndAutoFinish acts obs rews dones infos acc = none) := by
  constructor
  · simp [addStep]
  · rintro ⟨i, hi, hbad⟩
    rw [addStepsAndAutoFinish, if_neg]
    intro hall
    have := List.all_eq_true.mp hall i (List.mem_range.mpr hi)
    rw [hbad] at this
    exact Bool.false_ne_true this

/-- Witness for C3 at a fresh accumulator: adding a non-observation record
under key 1 succeeds, while `add_steps_and_auto_finish` on an unseeded
accumulator fails. -/
theorem C3_seeding_enforced_witness :
    (addStep emptyAcc 1 ⟨some 5, none, none, none⟩) 1 =
      some ((emptyAcc 1).getD [] ++ [⟨some 5, none, none, none⟩])
    ∧ addStepsAndAutoFinish [1] [2] [3] [true] [4] emptyAcc = none := by
  have h := C3_seeding_enforced_at_auto_finish [1] [2] [3] [true] [4] emptyAcc
    emptyAcc 1 ⟨some 5, none, none, none⟩
  exact ⟨h.1, h.2 ⟨0, by decide, by decide⟩⟩

/-- One iteration of environment feedback consumed by the rollout loop: the
batched actions with their NaN flags (`np.isnan(np.sum(acts[i,:,:]))` per
slot), and the results of `venv.step(acts)`. -/
structure GenInput where
  acts : List ℤ
  actsIsNaN : List Bool
  obs : List ℤ
  rews : List ℤ
  dones : List Bool
  infos : List ℤ

/-- Mutable state of `generate_trajectories`: the accumulator, the collected
finalised trajectories (tagged with the slot that produced them), the
`active` vector and the demo counter. -/
structure GenState where
  acc : AccState
  trajectories : List (ℕ × Traj)
  active : List Bool
  numDemos : ℕ

/-- Loop guard `np.any(active) and num_demos < total_demos_per_round`;
the bound is `⊤` for the default `float("inf")`. -/
def genGuard (bound : ℕ∞) (st : GenState) : Bool :=
  st.active.any id && decide ((st.numDemos : ℕ∞) < bound)

/-- One body iteration of the sampling loop: count the non-NaN actions
toward the demo counter (the `forceDone` signal is an environment effect),
mask the done vector with `active` (`dones &= active`), feed the transition
into the accumulator, collect the newly finished trajectories, and, when a
supplied `sample_until` predicate holds on the collected list, deactivate
exactly the slots that finished this tick (`active &= ~dones`). -/
def genStep (sampleUntil : Option (List Traj → Bool)) (inp : GenInput)
    (st : GenState) : Option GenState :=
  let numDemos1 := st.numDemos + inp.actsIsNaN.count false
  let maskedDones := List.zipWith (fun d a => d && a) inp.dones st.active
  match addStepsAndAutoFinish inp.acts inp.obs inp.rews maskedDones inp.infos st.acc with
  | none => none
  | some (newTrajs, acc1) =>
      let trajectories1 := st.trajectories ++ newTrajs
      let active1 := match sampleUntil with
        | some f =>
            if f (trajectories1.map Prod.snd) then
              List.zipWith (fun a d => a && !d) st.active maskedDones
            else st.active
        | none => st.active
      some ⟨acc1, trajectories1, active1, numDemos1⟩

/-- The sampling loop driven by a stream of environment feedbacks; the guard
is checked before each iteration. -/
def genRun (sampleUntil : Option (List Traj → Bool)) (bound : ℕ∞) :
    List GenInput → GenState → Option GenState
  | [], st => some st
  | inp :: rest, st =>
      if genGuard bound st then
        match genStep sampleUntil inp st with
        | none => none
        | some st1 => genRun sampleUntil bound rest st1
      else some st

/-- Seeds the accumulator with each slot's initial reset observation
(`add_step(dict(obs=ob), env_idx)`). -/
def seedAll : ℕ → List ℤ → AccState → AccState
  | _, [], acc => acc
  | idx, ob :: rest, acc =>
      seedAll (idx + 1) rest (addStep acc idx ⟨some ob, none, none, none⟩)

/-- Driver state right after `venv.reset()`: seeded accumulator, no
trajectories, all slots active, zero demos. -/
def genInitState (obs0 : List ℤ) : GenState :=
  ⟨seedAll 0 obs0 emptyAcc, [], List.replicate obs0.length true, 0⟩

lemma zipStep_length_le_dones :
    ∀ (a o r : List ℤ) (d : List Bool) (i : List ℤ),
      (zipStep a o r d i).length ≤ d.length := by
  intro a
  induction a with
  | nil => intro o r d i; exact Nat.zero_le d.length
  | cons x ta ih =>
      intro o r d i
      cases o with
      | nil => exact Nat.zero_le d.length
      | cons y tb =>
          cases r with
          | nil => exact Nat.zero_le d.length
          | cons z tc =>
              cases d with
              | nil => exact Nat.zero_le 0
              | cons w td =>
                  cases i with
                  | nil => exact Nat.zero_le (w :: td).length
                  | cons v te =>
                      exact Nat.succ_le_succ (ih tb tc td te)

lemma zipStep_getD_done :
    ∀ (a o r : List ℤ) (d : List Bool) (i : List ℤ) (k : ℕ),
      k < (zipStep a o r d i).length →
      ((zipStep a o r d i).getD k default).done = d.getD k false := by
  intro a
  induction a with
  | nil => intro o r d i k hk; exact absurd hk (Nat.not_lt_zero k)
  | cons x ta ih =>
      intro o r d i k hk
      cases o with
      | nil => exact absurd hk (Nat.not_lt_zero k)
      | cons y tb =>
          cases r with
          | nil => exact absurd hk (Nat.not_lt_zero k)
          | cons z tc =>
              cases d with
              | nil => exact absurd hk (Nat.not_lt_zero k)
              | cons w td =>
                  cases i with
                  | nil => exact absurd hk (Nat.not_lt_zero k)
                  | cons v te =>
                      cases k with
                      | zero => rfl
                      | succ k =>
                          exact ih tb tc td te k (Nat.lt_of_succ_lt_succ hk)

lemma autoFinishWorker_emits :
    ∀ (tuples : List StepTuple) (idx : ℕ) (acc : AccState)
      (ts : List (ℕ × Traj)) (accF : AccState),
      autoFinishWorker idx tuples acc = some (ts, accF) →
      ∀ p ∈ ts, ∃ k, k < tuples.length ∧ p.1 = idx + k ∧
        (tuples.getD k default).done = true := by
  intro tuples
  induction tuples with
  | nil =>
      intro idx acc ts accF h p hp
      rw [autoFinishWorker] at h
      obtain ⟨rfl, rfl⟩ : ts = [] ∧ accF = acc := by
        have := Option.some.inj h
        exact ⟨(congrArg Prod.fst this).symm, (congrArg Prod.snd this).symm⟩
      exact absurd hp (List.not_mem_nil p)
  | cons t rest ih =>
      intro idx acc ts accF h p hp
      rw [autoFinishWorker] at h
      by_cases hdone : t.done
      · rw [if_pos hdone] at h
        cases hfin : finishTrajectory
            (addStep acc idx ⟨some (if t.done then t.info else t.ob),
              some t.act, some t.rew, some t.info⟩) idx true with
        | none => rw [hfin] at h; exact absurd h (by simp)
        | some pr =>
            obtain ⟨traj, acc2⟩ := pr
            rw [hfin] at h
            dsimp only at h
            cases hrec : autoFinishWorker (idx + 1) rest
                (addStep acc2 idx ⟨some t.ob, none, none, none⟩) with
            | none => rw [hrec] at h; exact absurd h (by simp)
            | some pr2 =>
                obtain ⟨ts2, accF2⟩ := pr2
                rw [hrec] at h
                dsimp only at h
                have hts : (idx, traj) :: ts2 = ts :=
                  congrArg Prod.fst (Option.some.inj h)
                rw [← hts] at hp
                rcases List.mem_cons.mp hp with rfl | hp2
                · exact ⟨0, by simp, by simp, by simpa using hdone⟩
                · rcases ih (idx + 1) _ ts2 accF2 hrec p hp2 with
                    ⟨k, hk, hpk, hdk⟩
                  exact ⟨k + 1, by simpa using hk, by omega, hdk⟩
      · rw [if_neg hdone] at h
        rcases ih (idx + 1) _ ts accF h p hp with ⟨k, hk, hpk, hdk⟩
        exact ⟨k + 1, by simpa using hk, by omega, hdk⟩

lemma addSteps_emits (a o r : List ℤ) (d : List Bool) (i : List ℤ)
    (acc : AccState) (ts : List (ℕ × Traj)) (accF : AccState)
    (h : addStepsAndAutoFinish a o r d i acc = some (ts, accF)) :
    ∀ p ∈ ts, p.1 < d.length ∧ d.getD p.1 false = true := by
  rw [addStepsAndAutoFinish] at h
  by_cases hpre : (List.range o.length).all (fun k => seededOk acc k) = true
  · rw [if_pos hpre] at h
    intro p hp
    rcases autoFinishWorker_emits _ 0 acc ts accF h p hp with ⟨k, hk, hpk, hdk⟩
    have hkd : k < d.length := lt_of_lt_of_le hk (zipStep_length_le_dones a o r d i)
    have := zipStep_getD_done a o r d i k hk
    rw [this] at hdk
    constructor
    · omega
    · rw [hpk]; simpa using hdk
  · rw [if_neg hpre] at h
    exact absurd h (by simp)

lemma getD_zipWith_bool (f : Bool → Bool → Bool) :
    ∀ (l1 l2 : List Bool) (k : ℕ), k < (List.zipWith f l1 l2).length →
      (List.zipWith f l1 l2).getD k false = f (l1.getD k false) (l2.getD k false) := by
  intro l1
  induction l1 with
  | nil => intro l2 k hk; simp at hk
  | cons x t1 ih =>
      intro l2 k hk
      cases l2 with
      | nil => simp at hk
      | cons y t2 =>
          rw [List.zipWith_cons_cons] at hk ⊢
          cases k with
          | zero => rfl
          | succ k => exact ih t2 k (by simpa using hk)

/-- The loop body never finalises a trajectory for an inactive slot and never
reactivates it: `dones &= active` masks the slot's done signal to false. -/
lemma genStep_inactive (su : Option (List Traj → Bool)) (inp : GenInput)
    (st st1 : GenState) (s : ℕ)
    (hs : st.active.getD s false = false)
    (h : genStep su inp st = some st1) :
    st1.trajectories.filter (fun p => p.1 = s) =
      st.trajectories.filter (fun p => p.1 = s)
    ∧ st1.active.getD s false = false := by
  rw [genStep] at h
  cases haf : addStepsAndAutoFinish inp.acts inp.obs inp.rews
      (List.zipWith (fun d a => d && a) inp.dones st.active) inp.infos st.acc with
  | none => rw [haf] at h; exact absurd h (by simp)
  | some pr =>
      rw [haf] at h
      obtain ⟨newTrajs, acc1⟩ := pr
      dsimp only at h
      have hinj := Option.some.inj h
      subst hinj
      have hmasked : ∀ p ∈ newTrajs, p.1 ≠ s := by
        intro p hp hps
        rcases addSteps_emits inp.acts inp.obs inp.rews _ inp.infos st.acc newTrajs acc1
          haf p hp with ⟨hlt, hdone⟩
        rw [hps] at hlt hdone
        have hval := getD_zipWith_bool (fun d a => d && a) inp.dones st.active s hlt
        rw [hval, hs] at hdone
        simp at hdone
      have hfilter : newTrajs.filter (fun p => p.1 = s) = [] := by
        rw [List.filter_eq_nil_iff]
        intro p hp
        simpa using hmasked p hp
      constructor
      · show (st.trajectories ++ newTrajs).filter (fun p => decide (p.1 = s)) =
          st.trajectories.filter (fun p => decide (p.1 = s))
        rw [List.filter_append, hfilter, List.append_nil]
      · cases su with
        | none => exact hs
        | some f =>
            show (if f ((st.trajectories ++ newTrajs).map Prod.snd) = true then
                List.zipWith (fun a d => a && !d) st.active
                  (List.zipWith (fun d a => d && a) inp.dones st.active)
              else st.active).getD s false = false
            by_cases hf : f ((st.trajectories ++ newTrajs).map Prod.snd) = true
            · rw [if_pos hf]
              by_cases hlen : s < (List.zipWith (fun a d => a && !d) st.active
                  (List.zipWith (fun d a => d && a) inp.dones st.active)).length
              · rw [getD_zipWith_bool _ _ _ s hlen, hs]
                rfl
              · exact List.getD_eq_default _ _ (by omega)
            · rw [if_neg hf]
              exact hs

/-- C7: once a slot is inactive, any further `done = true` signal from it is
masked off (`dones &= active`), so no trajectory is ever finalised for that
slot again and the slot never becomes active again, over any remaining run. -/
theorem C7_inactive_slot_stays_quiet (su : Option (List Traj → Bool))
    (bound : ℕ∞) (inps : List GenInput) (st st' : GenState) (s : ℕ)
    (hs : st.active.getD s false = false)
    (h : genRun su bound inps st = some st') :
    st'.trajectories.filter (fun p => p.1 = s) =
      st.trajectories.filter (fun p => p.1 = s)
    ∧ st'.active.getD s false = false := by
  induction inps generalizing st with
  | nil =>
      rw [genRun] at h
      have := Option.some.inj h
      rw [← this]
      exact ⟨rfl, hs⟩
  | cons inp rest ih =>
      rw [genRun] at h
      by_cases hg : genGuard bound st = true
      · rw [if_pos hg] at h
        cases hstep : genStep su inp st with
        | none => rw [hstep] at h; exact absurd h (by simp)
        | some st1 =>
            rw [hstep] at h
            rcases genStep_inactive su inp st st1 s hs hstep with ⟨hfil, hact⟩
            rcases ih st1 hact h with ⟨hfil', hact'⟩
            exact ⟨hfil'.trans hfil, hact'⟩
      · rw [Bool.not_eq_true] at hg
        rw [hg] at h
        simp only [Bool.false_eq_true, if_false] at h
        have := Option.some.inj h
        rw [← this]
        exact ⟨rfl, hs⟩

/-- Concrete one-slot state with the single slot already deactivated. -/
def quietState : GenState := ⟨emptyAcc, [], [false], 0⟩

/-- Concrete environment feedback reporting `done = true` for that slot. -/
def quietInput : GenInput := ⟨[1], [false], [2], [3], [true], [4]⟩

/-- Witness for C7: a run over one feedback with the slot inactive emits no
trajectory for it and leaves it inactive. -/
theorem C7_inactive_slot_stays_quiet_witness :
    quietState.active.getD 0 false = false
    ∧ genRun none ⊤ [quietInput] quietState = some quietState
    ∧ (quietState.trajectories.filter (fun p => p.1 = 0) =
        quietState.trajectories.filter (fun p => p.1 = 0)
      ∧ quietState.active.getD 0 false = false) := by
  have h1 : quietState.active.getD 0 false = false := by decide
  have h2 : genRun none ⊤ [quietInput] quietState = some quietState := rfl
  exact ⟨h1, h2, C7_inactive_slot_stays_quiet none ⊤ [quietInput]
    quietState quietState 0 h1 h2⟩

/-- Model of the external `rng.shuffle` call at its interface: the random
stream selects, at each step, which remaining element comes next. Whatever
the stream, the result is a permutation of the references in the input list,
with no element changed. -/
def shuffleList {α : Type} [Inhabited α] : List α → List ℕ → List α
  | [], _ => []
  | x :: xs, [] => x :: xs
  | x :: xs, r :: rs =>
      (x :: xs).getD (r % (x :: xs).length) default ::
        shuffleList ((x :: xs).eraseIdx (r % (x :: xs).length)) rs
termination_by _ rs => rs.length

/-- `generate_trajectories`: seed the accumulator from `venv.reset()`, run
the sampling loop, then shuffle the collected trajectory list. -/
def generateTrajectories (sampleUntil : Option (List Traj → Bool)) (bound : ℕ∞)
    (obs0 : List ℤ) (inps : List GenInput) (rng : List ℕ) : Option (List Traj) :=
  match genRun sampleUntil bound inps (genInitState obs0) with
  | none => none
  | some st => some (shuffleList (st.trajectories.map Prod.snd) rng)

lemma getD_cons_eraseIdx_perm {α : Type} [Inhabited α] (l : List α) (j : ℕ)
    (hj : j < l.length) :
    List.Perm (l.getD j default :: l.eraseIdx j) l := by
  rw [List.eraseIdx_eq_take_drop_succ, List.getD_eq_getElem l default hj]
  conv_rhs => rw [← List.take_append_drop j l, ← List.getElem_cons_drop l j hj]
  exact List.perm_middle.symm

lemma shuffleList_perm {α : Type} [Inhabited α] :
    ∀ (rs : List ℕ) (l : List α), List.Perm (shuffleList l rs) l := by
  intro rs
  induction rs with
  | nil =>
      intro l
      cases l with
      | nil => rw [shuffleList]
      | cons x xs => rw [shuffleList]
  | cons r rs ih =>
      intro l
      cases l with
      | nil => rw [shuffleList]
      | cons x xs =>
          rw [shuffleList]
          have hj : r % (x :: xs).length < (x :: xs).length :=
            Nat.mod_lt r (by simp)
          exact List.Perm.trans
            (List.Perm.cons _ (ih ((x :: xs).eraseIdx (r % (x :: xs).length))))
            (getD_cons_eraseIdx_perm (x :: xs) _ hj)

/-- C8: the list returned by `generate_trajectories` is the shuffle of the
trajectories finalised during the run, and that shuffle is a pure
permutation: only the order of the references changes, never their content
nor the multiset of trajectories collected. -/
theorem C8_shuffle_pure_permutation (su : Option (List Traj → Bool))
    (bound : ℕ∞) (obs0 : List ℤ) (inps : List GenInput) (rng : List ℕ)
    (st' : GenState) (h : genRun su bound inps (genInitState obs0) = some st') :
    generateTrajectories su bound obs0 inps rng =
      some (shuffleList (st'.trajectories.map Prod.snd) rng)
    ∧ List.Perm (shuffleList (st'.trajectories.map Prod.snd) rng)
        (st'.trajectories.map Prod.snd) := by
  constructor
  · rw [generateTrajectories, h]
  · exact shuffleList_perm rng _

/-- Witness for C8 on a one-slot run with no environment feedback. -/
theorem C8_shuffle_pure_permutation_witness :
    generateTrajectories none ⊤ [7] [] [3] =
      some (shuffleList ((genInitState [7]).trajectories.map Prod.snd) [3])
    ∧ List.Perm (shuffleList ((genInitState [7]).trajectories.map Prod.snd) [3])
        ((genInitState [7]).trajectories.map Prod.snd) :=
  C8_shuffle_pure_permutation none ⊤ [7] [] [3] (genInitState [7]) rfl

lemma genStep_active_of_none (inp : GenInput) (st st1 : GenState)
    (h : genStep none inp st = some st1) : st1.active = st.active := by
  rw [genStep] at h
  cases haf : addStepsAndAutoFinish inp.acts inp.obs inp.rews
      (List.zipWith (fun d a => d && a) inp.dones st.active) inp.infos st.acc with
  | none => rw [haf] at h; exact absurd h (by simp)
  | some pr =>
      rw [haf] at h
      obtain ⟨newTrajs, acc1⟩ := pr
      dsimp only at h
      have hinj := Option.some.inj h
      subst hinj
      rfl

/-- C9: with `sample_until = None` and the default infinite demo bound, the
active vector is never modified and the demo bound is never reached, so the
loop guard holds invariantly: over any number of iterations the state keeps
all `n` slots active and `genGuard` still evaluates true, hence the loop
never exits on its own. -/
theorem C9_default_run_never_terminates (inps : List GenInput) (n : ℕ)
    (st st' : GenState) (hn : 0 < n)
    (hact : st.active = List.replicate n true)
    (h : genRun none ⊤ inps st = some st') :
    st'.active = List.replicate n true ∧ genGuard ⊤ st' = true := by
  have hguard : ∀ (s : GenState), s.active = List.replicate n true →
      genGuard ⊤ s = true := by
    intro s hsa
    rw [genGuard, hsa]
    have h1 : (List.replicate n true).any id = true :=
      List.any_eq_true.mpr ⟨true, List.mem_replicate.mpr ⟨by omega, rfl⟩, rfl⟩
    have h2 : decide ((s.numDemos : ℕ∞) < ⊤) = true :=
      decide_eq_true (WithTop.coe_lt_top _)
    rw [h1, h2]
    rfl
  induction inps generalizing st with
  | nil =>
      rw [genRun] at h
      have := Option.some.inj h
      rw [← this]
      exact ⟨hact, hguard st hact⟩
  | cons inp rest ih =>
      rw [genRun] at h
      rw [if_pos (hguard st hact)] at h
      cases hstep : genStep none inp st with
      | none => rw [hstep] at h; exact absurd h (by simp)
      | some st1 =>
          rw [hstep] at h
          have hact1 : st1.active = List.replicate n true := by
            rw [genStep_active_of_none inp st st1 hstep, hact]
          exact ih st1 hact1 h

/-- Witness for C9: the freshly seeded one-slot state keeps its single slot
active and a true guard across a (trivial) run. -/
theorem C9_default_run_never_terminates_witness :
    (genInitState [7]).active = List.replicate 1 true
    ∧ genGuard ⊤ (genInitState [7]) = true :=
  C9_default_run_never_terminates [] 1 (genInitState [7]) (genInitState [7])
    (by decide) rfl rfl

/-- Violation flags reported by one slot's info dict in the benchmark loop. -/
structure BenchInfo where
  obstAvoidanceViolation : Bool
  transDynLimViolation : Bool
  yawDynLimViolation : Bool
deriving DecidableEq

/-- The aggregate counters of `generate_trajectories_for_benchmark`. -/
structure BenchState where
  numDemos : ℕ
  totalObsAvoidanceFailure : ℕ
  totalTransDynLimitFailure : ℕ
  totalYawDynLimitFailure : ℕ
  totalFailure : ℕ
deriving DecidableEq

/-- One step of the per-iteration action loop: a non-NaN action counts one
demo, a NaN action counts one combined failure and raises the shared
`is_nan_action` flag. -/
def benchNaNStep (p : BenchState × Bool) (isnan : Bool) : BenchState × Bool :=
  if isnan then ({ p.1 with totalFailure := p.1.totalFailure + 1 }, true)
  else ({ p.1 with numDemos := p.1.numDemos + 1 }, p.2)

/-- The per-iteration action loop over all slots, with the flag initialised
false at the top of every iteration. -/
def benchNaNLoop (actsIsNaN : List Bool) (st : BenchState) : BenchState × Bool :=
  actsIsNaN.foldl benchNaNStep (st, false)

/-- One step of the per-iteration violation loop: each violation flag bumps
its own counter, and the combined failure counter is bumped only when the
iteration had no NaN action anywhere (`not is_nan_action and (...)`). -/
def benchViolationStep (isNanAction : Bool) (s : BenchState) (info : BenchInfo) :
    BenchState :=
  let s1 := if info.obstAvoidanceViolation then
    { s with totalObsAvoidanceFailure := s.totalObsAvoidanceFailure + 1 } else s
  let s2 := if info.transDynLimViolation then
    { s1 with totalTransDynLimitFailure := s1.totalTransDynLimitFailure + 1 } else s1
  let s3 := if info.yawDynLimViolation then
    { s2 with totalYawDynLimitFailure := s2.totalYawDynLimitFailure + 1 } else s2
  if !isNanAction && (info.obstAvoidanceViolation || info.transDynLimViolation
      || info.yawDynLimViolation) then
    { s3 with totalFailure := s3.totalFailure + 1 }
  else s3

/-- The per-iteration violation loop over all slots. -/
def benchViolationLoop (isNanAction : Bool) (infos : List BenchInfo)
    (st : BenchState) : BenchState :=
  infos.foldl (benchViolationStep isNanAction) st

/-- Counter updates of one iteration of the benchmark loop body (the venv
reset, step and `saveInBag` calls are environment effects with no counter
state). -/
def benchStep (actsIsNaN : List Bool) (infos : List BenchInfo)
    (st : BenchState) : BenchState :=
  benchViolationLoop (benchNaNLoop actsIsNaN st).2 infos (benchNaNLoop actsIsNaN st).1

lemma benchNaNFold_spec :
    ∀ (l : List Bool) (p : BenchState × Bool),
      (l.foldl benchNaNStep p).1.numDemos = p.1.numDemos + l.count false
      ∧ (l.foldl benchNaNStep p).1.totalFailure = p.1.totalFailure + l.count true
      ∧ (l.foldl benchNaNStep p).1.totalObsAvoidanceFailure
          = p.1.totalObsAvoidanceFailure
      ∧ (l.foldl benchNaNStep p).1.totalTransDynLimitFailure
          = p.1.totalTransDynLimitFailure
      ∧ (l.foldl benchNaNStep p).1.totalYawDynLimitFailure
          = p.1.totalYawDynLimitFailure
      ∧ (l.foldl benchNaNStep p).2 = (p.2 || l.any id) := by
  intro l
  induction l with
  | nil => intro p; simp
  | cons b rest ih =>
      intro p
      rw [List.foldl_cons]
      have h := ih (benchNaNStep p b)
      cases b with
      | false =>
          have e1 : (benchNaNStep p false).1.numDemos = p.1.numDemos + 1 := rfl
          have e2 : (benchNaNStep p false).1.totalFailure = p.1.totalFailure := rfl
          have e3 : (benchNaNStep p false).1.totalObsAvoidanceFailure
              = p.1.totalObsAvoidanceFailure := rfl
          have e4 : (benchNaNStep p false).1.totalTransDynLimitFailure
              = p.1.totalTransDynLimitFailure := rfl
          have e5 : (benchNaNStep p false).1.totalYawDynLimitFailure
              = p.1.totalYawDynLimitFailure := rfl
          have e6 : (benchNaNStep p false).2 = p.2 := rfl
          refine ⟨?_, ?_, ?_, ?_, ?_, ?_⟩
          · rw [h.1, e1, List.count_cons]
            simp
            omega
          · rw [h.2.1, e2, List.count_cons]
            simp
          · rw [h.2.2.1, e3]
          · rw [h.2.2.2.1, e4]
          · rw [h.2.2.2.2.1, e5]
          · rw [h.2.2.2.2.2, e6]
            simp
      | true =>
          have e1 : (benchNaNStep p true).1.numDemos = p.1.numDemos := rfl
          have e2 : (benchNaNStep p true).1.totalFailure = p.1.totalFailure + 1 := rfl
          have e3 : (benchNaNStep p true).1.totalObsAvoidanceFailure
              = p.1.totalObsAvoidanceFailure := rfl
          have e4 : (benchNaNStep p true).1.totalTransDynLimitFailure
              = p.1.totalTransDynLimitFailure := rfl
          have e5 : (benchNaNStep p true).1.totalYawDynLimitFailure
              = p.1.totalYawDynLimitFailure := rfl
          have e6 : (benchNaNStep p true).2 = true := rfl
          refine ⟨?_, ?_, ?_, ?_, ?_, ?_⟩
          · rw [h.1, e1, List.count_cons]
            simp
          · rw [h.2.1, e2, List.count_cons]
            simp
            omega
          · rw [h.2.2.1, e3]
          · rw [h.2.2.2.1, e4]
          · rw [h.2.2.2.2.1, e5]
          · rw [h.2.2.2.2.2, e6]
            simp

lemma benchViolationStep_true_fields (s : BenchState) (info : BenchInfo) :
    (benchViolationStep true s info).totalFailure = s.totalFailure
    ∧ (benchViolationStep true s info).totalObsAvoidanceFailure
        = s.totalObsAvoidanceFailure + (if info.obstAvoidanceViolation then 1 else 0)
    ∧ (benchViolationStep true s info).totalTransDynLimitFailure
        = s.totalTransDynLimitFailure + (if info.transDynLimViolation then 1 else 0)
    ∧ (benchViolationStep true s info).totalYawDynLimitFailure
        = s.totalYawDynLimitFailure + (if info.yawDynLimViolation then 1 else 0)
    ∧ (benchViolationStep true s info).numDemos = s.numDemos := by
  rcases info with ⟨o, t, y⟩
  cases o <;> cases t <;> cases y <;>
    exact ⟨rfl, by simp [benchViolationStep], by simp [benchViolationStep],
      by simp [benchViolationStep], rfl⟩

lemma benchViolationFold_true_spec :
    ∀ (infos : List BenchInfo) (s : BenchState),
      (infos.foldl (benchViolationStep true) s).totalFailure = s.totalFailure
      ∧ (infos.foldl (benchViolationStep true) s).totalObsAvoidanceFailure
          = s.totalObsAvoidanceFailure
            + infos.countP (fun i => i.obstAvoidanceViolation)
      ∧ (infos.foldl (benchViolationStep true) s).totalTransDynLimitFailure
          = s.totalTransDynLimitFailure
            + infos.countP (fun i => i.transDynLimViolation)
      ∧ (infos.foldl (benchViolationStep true) s).totalYawDynLimitFailure
          = s.totalYawDynLimitFailure
            + infos.countP (fun i => i.yawDynLimViolation)
      ∧ (infos.foldl (benchViolationStep true) s).numDemos = s.numDemos := by
  intro infos
  induction infos with
  | nil => intro s; simp
  | cons info rest ih =>
      intro s
      rw [List.foldl_cons]
      have h := ih (benchViolationStep true s info)
      have e := benchViolationStep_true_fields s info
      refine ⟨?_, ?_, ?_, ?_, ?_⟩
      · rw [h.1, e.1]
      · rw [h.2.1, e.2.1, List.countP_cons]
        omega
      · rw [h.2.2.1, e.2.2.1, List.countP_cons]
        omega
      · rw [h.2.2.2.1, e.2.2.2.1, List.countP_cons]
        omega
      · rw [h.2.2.2.2, e.2.2.2.2]

/-- C10: if any slot's action contains a NaN in an iteration of the
benchmark loop, then no violation from that iteration reaches the combined
failure counter (it gains exactly one per NaN action), while the three
individual violation counters still increase by their per-iteration
violation counts and the demo counter gains the non-NaN actions. -/
theorem C10_shared_nan_flag (actsIsNaN : List Bool) (infos : List BenchInfo)
    (st : BenchState) (h : actsIsNaN.any id = true) :
    (benchStep actsIsNaN infos st).totalFailure
      = st.totalFailure + actsIsNaN.count true
    ∧ (benchStep actsIsNaN infos st).totalObsAvoidanceFailure
        = st.totalObsAvoidanceFailure
          + infos.countP (fun i => i.obstAvoidanceViolation)
    ∧ (benchStep actsIsNaN infos st).totalTransDynLimitFailure
        = st.totalTransDynLimitFailure
          + infos.countP (fun i => i.transDynLimViolation)
    ∧ (benchStep actsIsNaN infos st).totalYawDynLimitFailure
        = st.totalYawDynLimitFailure
          + infos.countP (fun i => i.yawDynLimViolation)
    ∧ (benchStep actsIsNaN infos st).numDemos
        = st.numDemos + actsIsNaN.count false := by
  have hn := benchNaNFold_spec actsIsNaN (st, false)
  have hflag : (benchNaNLoop actsIsNaN st).2 = true := by
    rw [benchNaNLoop, hn.2.2.2.2.2]
    simpa using h
  have hbs : benchStep actsIsNaN infos st
      = benchViolationLoop true infos (benchNaNLoop actsIsNaN st).1 := by
    rw [benchStep, hflag]
  rw [hbs, benchViolationLoop]
  have hv := benchViolationFold_true_spec infos (benchNaNLoop actsIsNaN st).1
  have hn1 : (benchNaNLoop actsIsNaN st).1.totalFailure
      = st.totalFailure + actsIsNaN.count true := by
    rw [benchNaNLoop]; exact hn.2.1
  have hn2 : (benchNaNLoop actsIsNaN st).1.totalObsAvoidanceFailure
      = st.totalObsAvoidanceFailure := by
    rw [benchNaNLoop]; exact hn.2.2.1
  have hn3 : (benchNaNLoop actsIsNaN st).1.totalTransDynLimitFailure
      = st.totalTransDynLimitFailure := by
    rw [benchNaNLoop]; exact hn.2.2.2.1
  have hn4 : (benchNaNLoop actsIsNaN st).1.totalYawDynLimitFailure
      = st.totalYawDynLimitFailure := by
    rw [benchNaNLoop]; exact hn.2.2.2.2.1
  have hn5 : (benchNaNLoop actsIsNaN st).1.numDemos
      = st.numDemos + actsIsNaN.count false := by
    rw [benchNaNLoop]; exact hn.1
  exact ⟨by rw [hv.1, hn1], by rw [hv.2.1, hn2], by rw [hv.2.2.1, hn3],
    by rw [hv.2.2.2.1, hn4], by rw [hv.2.2.2.2, hn5]⟩

/-- Witness for C10 with two slots, one NaN action and one obstacle
violation: only the NaN adds to the combined count, the violation counter
still increments, the non-NaN action still counts as a demo. -/
theorem C10_shared_nan_flag_witness :
    ([true, false].any id = true)
    ∧ (benchStep [true, false] [⟨true, false, false⟩, ⟨false, false, false⟩]
        ⟨0, 0, 0, 0, 0⟩).totalFailure = 0 + [true, false].count true
    ∧ (benchStep [true, false] [⟨true, false, false⟩, ⟨false, false, false⟩]
        ⟨0, 0, 0, 0, 0⟩).totalObsAvoidanceFailure
        = 0 + [⟨true, false, false⟩, (⟨false, false, false⟩ : BenchInfo)].countP
            (fun i => i.obstAvoidanceViolation) := by
  have h := C10_shared_nan_flag [true, false]
    [⟨true, false, false⟩, ⟨false, false, false⟩] ⟨0, 0, 0, 0, 0⟩ (by decide)
  exact ⟨by decide, h.1, h.2.1⟩
